import Mathlib

/-!
Cube3D: a rotating wireframe cube.

A shallow embedding of `src/Cube3D.h`.

* `float` quantities (coordinates, angles, `sideLength`) are elements of a linearly ordered
  field `α` with a floor function; the theorems take `α = ℝ`, the definitions also run on `ℚ`.
  The definitions in the namespace `Cube3D` compute with exact arithmetic; those in
  `Cube3D.Binary32` are the same source lines with the rounding of each stored `float` result
  (`toFloat`) made explicit.
* The C library functions `cos`, `sin`, `sqrt` and the Arduino constant `TWO_PI` are not part of
  the source file.  Every definition that calls them takes them as explicit arguments, in the
  order `cos sin sqrt TWO_PI`; the theorems instantiate them with `Real.cos`, `Real.sin`,
  `Real.sqrt` and `2 * Real.pi`.
* `int` is `ℤ` (no overflow is modelled); the conversion `int(f)` of a `float` is truncation
  toward zero.
* The display `tft` is modelled by the list of drawing commands a method issues on it.
-/

namespace Cube3D

/-- The 3D point structure `Point3D` (`float x, y, z`). -/
structure Point3D (α : Type) where
  x : α
  y : α
  z : α
deriving DecidableEq

/-- The 2D point structure `Point2D` (`int x, y`). -/
structure Point2D where
  x : ℤ
  y : ℤ
deriving DecidableEq

/-- A 16 bit colour value (`uint16_t`). -/
abbrev Color := ℕ

/-- Modelled from the spec: the background colour constant of the display library
(`ST77XX_BLACK`, declared in the Adafruit header, not in the source file). -/
def ST77XX_BLACK : Color := 0x0000

/-- Modelled from the spec: the foreground colour constant of the display library
(`ST77XX_WHITE`, declared in the Adafruit header, not in the source file). -/
def ST77XX_WHITE : Color := 0xFFFF

/-- A call on the display surface `tft`: `drawLine(x1, y1, x2, y2, color)` or
`fillCircle(x, y, radius, color)`. -/
inductive DisplayCmd where
  | drawLine (x1 y1 x2 y2 : ℤ) (color : Color)
  | fillCircle (x y radius : ℤ) (color : Color)
deriving DecidableEq

/-- The conversion `int(f)` of a floating point value: the fractional part is discarded
(truncation toward zero). -/
def toInt {α : Type} [LinearOrderedField α] [FloorRing α] (f : α) : ℤ :=
  if 0 ≤ f then ⌊f⌋ else ⌈f⌉

end Cube3D

/-- The data members of class `Cube3D` (the display reference `tft` apart). -/
structure Cube3D (α : Type) where
  centerX : ℤ
  centerY : ℤ
  sideLength : α
  angleX : α
  angleY : α
  angleZ : α
  baseCubeVertices : Fin 8 → Cube3D.Point3D α

namespace Cube3D

variable {α : Type} [LinearOrderedField α] [FloorRing α]

/-- The constructor `Cube3D::Cube3D(display, cx, cy, sl)`. -/
def ctor (cx cy : ℤ) (sl : α) : Cube3D α where
  centerX := cx
  centerY := cy
  sideLength := sl
  angleX := 0
  angleY := 0
  angleZ := 0
  baseCubeVertices := ![⟨-1, -1, -1⟩, ⟨-1, 1, -1⟩, ⟨1, 1, -1⟩, ⟨1, -1, -1⟩,
                        ⟨-1, -1, 1⟩, ⟨-1, 1, 1⟩, ⟨1, 1, 1⟩, ⟨1, -1, 1⟩]

/-- The method `Cube3D::project`. -/
def project (s : Cube3D α) (p : Point3D α) : Point2D where
  x := s.centerX + toInt (p.x * s.sideLength)
  y := s.centerY + toInt (p.y * s.sideLength)

/-- The method `Cube3D::rotateX`. -/
def rotateX (cos sin : α → α) (p : Point3D α) (angle : α) : Point3D α where
  x := p.x
  y := p.y * cos angle - p.z * sin angle
  z := p.y * sin angle + p.z * cos angle

/-- The method `Cube3D::rotateY`. -/
def rotateY (cos sin : α → α) (p : Point3D α) (angle : α) : Point3D α where
  x := p.x * cos angle + p.z * sin angle
  y := p.y
  z := -p.x * sin angle + p.z * cos angle

/-- The method `Cube3D::rotateZ`. -/
def rotateZ (cos sin : α → α) (p : Point3D α) (angle : α) : Point3D α where
  x := p.x * cos angle - p.y * sin angle
  y := p.x * sin angle + p.y * cos angle
  z := p.z

/-- The method `Cube3D::drawLine3D`: one `drawLine` call between the two projections. -/
def drawLine3D (s : Cube3D α) (p1 p2 : Point3D α) (color : Color) : List DisplayCmd :=
  let proj1 := project s p1
  let proj2 := project s p2
  [DisplayCmd.drawLine proj1.x proj1.y proj2.x proj2.y color]

/-- The body of the loop of `drawCube` for index `i`: rotate base vertex `i` about X, then Y,
then Z, and store it in `rotatedVertices[i]`. -/
def rotateStep (cos sin : α → α) (s : Cube3D α)
    (rotatedVertices : Fin 8 → Point3D α) (i : Fin 8) : Fin 8 → Point3D α :=
  let v := s.baseCubeVertices i
  let v := rotateX cos sin v s.angleX
  let v := rotateY cos sin v s.angleY
  let v := rotateZ cos sin v s.angleZ
  Function.update rotatedVertices i v

/-- The loop `for (int i = 0; i < 8; i++)` of `drawCube`, run on the local array
`rotatedVertices` (whose initial content is never read; it is taken to be the origin). -/
def rotatedVertices (cos sin : α → α) (s : Cube3D α) : Fin 8 → Point3D α :=
  (List.finRange 8).foldl (rotateStep cos sin s) (fun _ => ⟨0, 0, 0⟩)

/-- The method `Cube3D::drawCube`: the commands it issues, in order. -/
def drawCube (cos sin : α → α) (s : Cube3D α) (color : Color) : List DisplayCmd :=
  let rv := rotatedVertices cos sin s
  -- Front face
  drawLine3D s (rv 0) (rv 1) color ++
  drawLine3D s (rv 1) (rv 2) color ++
  drawLine3D s (rv 2) (rv 3) color ++
  drawLine3D s (rv 3) (rv 0) color ++
  -- Back face
  drawLine3D s (rv 4) (rv 5) color ++
  drawLine3D s (rv 5) (rv 6) color ++
  drawLine3D s (rv 6) (rv 7) color ++
  drawLine3D s (rv 7) (rv 4) color ++
  -- Connecting edges
  drawLine3D s (rv 0) (rv 4) color ++
  drawLine3D s (rv 1) (rv 5) color ++
  drawLine3D s (rv 2) (rv 6) color ++
  drawLine3D s (rv 3) (rv 7) color

/-- The local variable `radius` of `eraseCubeArea`:
`int radius = int(sideLength * sqrt(2)) + (sideLength / 2);`
The sum of the `int` and the `float` is a `float`, which the initialisation truncates. -/
def eraseRadius (sqrt : α → α) (s : Cube3D α) : ℤ :=
  toInt (((toInt (s.sideLength * sqrt 2) : ℤ) : α) + s.sideLength / 2)

/-- The method `Cube3D::eraseCubeArea`: one `fillCircle` call. -/
def eraseCubeArea (sqrt : α → α) (s : Cube3D α) : List DisplayCmd :=
  let radius := eraseRadius sqrt s
  [DisplayCmd.fillCircle s.centerX s.centerY radius ST77XX_BLACK]

/-- The method `Cube3D::draw`. -/
def draw (cos sin : α → α) (s : Cube3D α) : List DisplayCmd :=
  drawCube cos sin s ST77XX_WHITE

/-- The statement `if (angle > TWO_PI) angle -= TWO_PI;` of `update`. -/
def wrap (TWO_PI : α) (angle : α) : α :=
  if angle > TWO_PI then angle - TWO_PI else angle

/-- The state of the cube after `update()`: the three angles are incremented, then wrapped. -/
def updateState (TWO_PI : α) (s : Cube3D α) : Cube3D α :=
  let s := { s with angleX := s.angleX + 0.01 }
  let s := { s with angleY := s.angleY + 0.02 }
  let s := { s with angleZ := s.angleZ + 0.03 }
  let s := { s with angleX := wrap TWO_PI s.angleX }
  let s := { s with angleY := wrap TWO_PI s.angleY }
  let s := { s with angleZ := wrap TWO_PI s.angleZ }
  s

/-- The method `Cube3D::update`: the new state and the commands issued, in order. The erase
call comes first, then the angles change, then `draw()` runs on the new state. -/
def update (cos sin sqrt : α → α) (TWO_PI : α) (s : Cube3D α) : Cube3D α × List DisplayCmd :=
  let erased := eraseCubeArea sqrt s
  let s := updateState TWO_PI s
  (s, erased ++ draw cos sin s)

/-- The state after `n` successive calls of `update()`. -/
def updateN (cos sin sqrt : α → α) (TWO_PI : α) : ℕ → Cube3D α → Cube3D α
  | 0, s => s
  | n + 1, s => (update cos sin sqrt TWO_PI (updateN cos sin sqrt TWO_PI n s)).1

/-- Rounding to the nearest whole number, a tie going to the even one. -/
def roundHalfEven (y : α) : ℤ :=
  if Int.fract y < 1 / 2 then ⌊y⌋
  else if 1 / 2 < Int.fract y then ⌊y⌋ + 1
  else if ⌊y⌋ % 2 = 0 then ⌊y⌋ else ⌊y⌋ + 1

/-- The value a `float` holds when the exact result `x` of an arithmetic operation is stored in
it: `x` rounded to 24 significant bits, to the nearest such value, a tie going to the even one
(IEEE binary32). `Int.log 2 |x|` is the binary exponent of `x`. The exponent range is not
bounded: overflow to infinity and subnormal numbers are not modelled. -/
def toFloat (x : α) : α :=
  (roundHalfEven (x / 2 ^ (Int.log 2 |x| - 23)) : α) * 2 ^ (Int.log 2 |x| - 23)

namespace Binary32

/-- The method `Cube3D::project` with the rounding of `float` arithmetic: each product
`p.x * sideLength`, `p.y * sideLength` is a `float` multiplication, whose result is the exact
product rounded to `float`, and `int(...)` truncates that. -/
def project (s : Cube3D α) (p : Point3D α) : Point2D where
  x := s.centerX + toInt (toFloat (p.x * s.sideLength))
  y := s.centerY + toInt (toFloat (p.y * s.sideLength))

/-- The local variable `radius` of `eraseCubeArea` with the rounding of `float` arithmetic:
`int radius = int(sideLength * sqrt(2)) + (sideLength / 2);`
The product is formed in `double` and is taken as exact, halving a `float` is exact, and the
sum of the `int` and the `float` is a `float` addition, rounded to `float` before the
initialisation truncates it. -/
def eraseRadius (sqrt : α → α) (s : Cube3D α) : ℤ :=
  toInt (toFloat (((toInt (s.sideLength * sqrt 2) : ℤ) : α) + s.sideLength / 2))

/-- The statement `if (angle > TWO_PI) angle -= TWO_PI;` of `update` with the rounding of
`float` arithmetic: the difference is rounded to `float` when it is stored in the angle. -/
def wrap (TWO_PI : α) (angle : α) : α :=
  if angle > TWO_PI then toFloat (angle - TWO_PI) else angle

/-- The state of the cube after `update()` with the rounding of `float` arithmetic: each sum
`angle + step` is rounded to `float` when it is stored in the angle, then the angle is
wrapped. -/
def updateState (TWO_PI : α) (s : Cube3D α) : Cube3D α :=
  let s := { s with angleX := toFloat (s.angleX + 0.01) }
  let s := { s with angleY := toFloat (s.angleY + 0.02) }
  let s := { s with angleZ := toFloat (s.angleZ + 0.03) }
  let s := { s with angleX := wrap TWO_PI s.angleX }
  let s := { s with angleY := wrap TWO_PI s.angleY }
  let s := { s with angleZ := wrap TWO_PI s.angleZ }
  s

end Binary32

/-- The public methods of the class that a caller can invoke on a constructed cube. -/
inductive Method where
  | draw
  | update
deriving DecidableEq

/-- One method call on the object: the state it leaves and the commands it issues. `draw()`
(through `drawCube`) assigns only to the local array `rotatedVertices`, never to a data member,
so it leaves the state it was called on. -/
def call (cos sin sqrt : α → α) (TWO_PI : α) : Method → Cube3D α → Cube3D α × List DisplayCmd
  | Method.draw, s => (s, draw cos sin s)
  | Method.update, s => update cos sin sqrt TWO_PI s

/-- The state after a sequence of method calls, made in the order of the list. -/
def run (cos sin sqrt : α → α) (TWO_PI : α) : List Method → Cube3D α → Cube3D α
  | [], s => s
  | m :: ms, s => run cos sin sqrt TWO_PI ms (call cos sin sqrt TWO_PI m s).1

end Cube3D

/-! ## Vocabulary of the specification -/

namespace Cube3D

variable {α : Type} [LinearOrderedField α] [FloorRing α]

/-- The edge order of the specification: front face, back face, connecting edges. -/
def cubeEdges : List (Fin 8 × Fin 8) :=
  [(0, 1), (1, 2), (2, 3), (3, 0), (4, 5), (5, 6), (6, 7), (7, 4),
   (0, 4), (1, 5), (2, 6), (3, 7)]

/-- The display point of base vertex `i` as the specification describes it: rotate about X,
then Y, then Z by the current angles of the state, then project. -/
def displayVertex (cos sin : α → α) (s : Cube3D α) (i : Fin 8) : Point2D :=
  project s (rotateZ cos sin (rotateY cos sin (rotateX cos sin (s.baseCubeVertices i) s.angleX)
    s.angleY) s.angleZ)

/-- The line command of the specification for the edge `e`, in the given colour. -/
def edgeCommand (cos sin : α → α) (s : Cube3D α) (color : Color) (e : Fin 8 × Fin 8) :
    DisplayCmd :=
  DisplayCmd.drawLine (displayVertex cos sin s e.1).x (displayVertex cos sin s e.1).y
    (displayVertex cos sin s e.2).x (displayVertex cos sin s e.2).y color

/-- The cube state `s` with its three rotation angles set to `a`, `b`, `c`. -/
def withAngles (s : Cube3D α) (a b c : α) : Cube3D α :=
  { s with angleX := a, angleY := b, angleZ := c }

/-- The squared Euclidean norm of a point. -/
def normSq (p : Point3D α) : α :=
  p.x ^ 2 + p.y ^ 2 + p.z ^ 2

/-- The number of coordinates in which two points differ. -/
def diffCount (p q : Point3D α) : ℕ :=
  (if p.x = q.x then 0 else 1) + (if p.y = q.y then 0 else 1) + (if p.z = q.z then 0 else 1)

/-- The angle predicate of the specification: each of the three angles lies in the half-open
interval `[0, TWO_PI)`. -/
def AnglesInHalfOpen (TWO_PI : α) (s : Cube3D α) : Prop :=
  (0 ≤ s.angleX ∧ s.angleX < TWO_PI) ∧ (0 ≤ s.angleY ∧ s.angleY < TWO_PI) ∧
    (0 ≤ s.angleZ ∧ s.angleZ < TWO_PI)

/-- Each of the three angles lies in the closed interval `[0, TWO_PI]`. -/
def AnglesInClosed (TWO_PI : α) (s : Cube3D α) : Prop :=
  (0 ≤ s.angleX ∧ s.angleX ≤ TWO_PI) ∧ (0 ≤ s.angleY ∧ s.angleY ≤ TWO_PI) ∧
    (0 ≤ s.angleZ ∧ s.angleZ ≤ TWO_PI)

instance (TWO_PI : α) (s : Cube3D α) : Decidable (AnglesInHalfOpen TWO_PI s) := by
  unfold AnglesInHalfOpen
  infer_instance

instance (TWO_PI : α) (s : Cube3D α) : Decidable (AnglesInClosed TWO_PI s) := by
  unfold AnglesInClosed
  infer_instance

end Cube3D

/-! ## Auxiliary lemmas -/

namespace Cube3D

/-- A loop that stores `g j` in slot `j` for each index `j` of a list leaves `g i` in every
slot `i` it has visited and the initial content in the others. -/
lemma foldl_update_apply {β : Type} (g : Fin 8 → β) (l : List (Fin 8)) (init : Fin 8 → β)
    (i : Fin 8) :
    (l.foldl (fun rv j => Function.update rv j (g j)) init) i
      = if i ∈ l then g i else init i := by
  induction l generalizing init with
  | nil => simp
  | cons j l ih =>
    rw [List.foldl_cons, ih]
    by_cases hl : i ∈ l
    · simp [hl]
    · by_cases hj : i = j
      · subst hj
        simp [hl]
      · simp [hl, hj]

/-- The loop of `drawCube` leaves in slot `i` the base vertex `i` rotated about X, Y, Z. -/
lemma rotatedVertices_apply {α : Type} [LinearOrderedField α] (cos sin : α → α)
    (s : Cube3D α) (i : Fin 8) :
    rotatedVertices cos sin s i
      = rotateZ cos sin (rotateY cos sin (rotateX cos sin (s.baseCubeVertices i) s.angleX)
          s.angleY) s.angleZ := by
  have h := foldl_update_apply
    (fun j => rotateZ cos sin (rotateY cos sin (rotateX cos sin (s.baseCubeVertices j) s.angleX)
      s.angleY) s.angleZ) (List.finRange 8) (fun _ => ⟨0, 0, 0⟩) i
  simpa [rotatedVertices, rotateStep] using h

/-- The commands of `drawCube` are the edge commands of the specification, in its order. -/
lemma drawCube_eq_map {α : Type} [LinearOrderedField α] [FloorRing α] (cos sin : α → α)
    (s : Cube3D α) (color : Color) :
    drawCube cos sin s color = cubeEdges.map (edgeCommand cos sin s color) := by
  simp [drawCube, drawLine3D, cubeEdges, edgeCommand, displayVertex, rotatedVertices_apply]

/-- Truncation toward zero keeps the sign and floors the absolute value. -/
lemma toInt_eq_sign_mul_floor_abs {α : Type} [LinearOrderedField α] [FloorRing α] (v : α) :
    toInt v = (SignType.sign v : ℤ) * ⌊|v|⌋ := by
  unfold toInt
  rcases lt_trichotomy v 0 with h | h | h
  · rw [if_neg (not_le.mpr h), sign_neg h, abs_of_neg h, Int.floor_neg]
    simp
  · subst h
    simp
  · rw [if_pos h.le, sign_pos h, abs_of_pos h]
    simp

/-- On non-negative values `int(f)` is the floor. -/
lemma toInt_of_nonneg {α : Type} [LinearOrderedField α] [FloorRing α] {v : α} (h : 0 ≤ v) :
    toInt v = ⌊v⌋ := by
  simp [toInt, h]

/-- Bounds on the square root of two used for the concrete radii. -/
lemma sqrt_two_bounds : (1.41 : ℝ) < Real.sqrt 2 ∧ Real.sqrt 2 < 1.42 := by
  have h0 : (0 : ℝ) ≤ Real.sqrt 2 := Real.sqrt_nonneg 2
  have h2 : Real.sqrt 2 ^ 2 = 2 := Real.sq_sqrt (by norm_num)
  constructor
  · by_contra hc
    nlinarith [not_lt.mp hc]
  · by_contra hc
    nlinarith [not_lt.mp hc]

/-- For a positive side length both truncations of `eraseCubeArea` are floors. -/
lemma eraseRadius_of_pos (s : Cube3D ℝ) (h : 0 < s.sideLength) :
    eraseRadius Real.sqrt s = ⌊s.sideLength * Real.sqrt 2⌋ + ⌊s.sideLength / 2⌋ := by
  have h1 : 0 ≤ s.sideLength * Real.sqrt 2 := mul_nonneg h.le (Real.sqrt_nonneg 2)
  have h2 : (0 : ℝ) ≤ ((⌊s.sideLength * Real.sqrt 2⌋ : ℤ) : ℝ) := by
    exact_mod_cast Int.floor_nonneg.mpr h1
  have h3 : 0 ≤ s.sideLength / 2 := by positivity
  unfold eraseRadius
  rw [toInt_of_nonneg h1, toInt_of_nonneg (add_nonneg h2 h3), Int.floor_int_add]

/-- A positive multiple of a rational step is never a non-zero multiple of `2 * π`. -/
lemma step_ne_two_pi_mul (m : ℕ) (q : ℚ) (k : ℤ) (hk : k ≠ 0) :
    (m : ℝ) * (q : ℝ) ≠ 2 * Real.pi * k := by
  intro h
  have hk2 : (k : ℝ) ≠ 0 := by exact_mod_cast hk
  apply irrational_pi
  refine ⟨(m : ℚ) * q / (2 * k), ?_⟩
  push_cast
  rw [h]
  field_simp
  ring

/-- One increment-and-wrap step of `update` on an angle `a = n * q - 2 * π * k` in
`[0, 2 * π)`: the result is `(n + 1) * q - 2 * π * k2` for an integer `k2`, again in
`[0, 2 * π)`. -/
lemma wrap_add_step (q : ℚ) (hq0 : 0 < q) (hq : (q : ℝ) < 2 * Real.pi) (n : ℕ) (a : ℝ)
    (h : ∃ k : ℤ, a = n * (q : ℝ) - 2 * Real.pi * k ∧ 0 ≤ a ∧ a < 2 * Real.pi) :
    ∃ k : ℤ, wrap (2 * Real.pi) (a + q) = ((n + 1 : ℕ) : ℝ) * (q : ℝ) - 2 * Real.pi * k ∧
      0 ≤ wrap (2 * Real.pi) (a + q) ∧ wrap (2 * Real.pi) (a + q) < 2 * Real.pi := by
  obtain ⟨k, hk, h0, h1⟩ := h
  have hq0r : (0 : ℝ) < (q : ℝ) := by exact_mod_cast hq0
  unfold wrap
  by_cases hgt : a + (q : ℝ) > 2 * Real.pi
  · rw [if_pos hgt]
    refine ⟨k + 1, ?_, by linarith, by linarith⟩
    push_cast
    rw [hk]
    ring
  · rw [if_neg hgt]
    have hne : a + (q : ℝ) ≠ 2 * Real.pi := by
      intro he
      have hk1 : k + 1 ≠ 0 := by
        intro hz
        have hz2 : (k : ℝ) = -1 := by
          have : ((k + 1 : ℤ) : ℝ) = 0 := by exact_mod_cast hz
          push_cast at this
          linarith
        rw [hz2] at hk
        have : (0 : ℝ) ≤ (n : ℝ) * (q : ℝ) := by positivity
        linarith [Real.pi_pos]
      apply step_ne_two_pi_mul (n + 1) q (k + 1) hk1
      push_cast
      rw [hk] at he
      linarith
    refine ⟨k, ?_, by linarith, lt_of_le_of_ne (not_lt.mp hgt) hne⟩
    push_cast
    rw [hk]
    ring

/-- The remainder of `x` modulo `p`: if `x = r + p * k` with `0 ≤ r < p` then `k` is the floor
of `x / p`. -/
lemma floor_div_of_remainder (x p r : ℝ) (k : ℤ) (hp : 0 < p) (hx : r = x - p * k)
    (h0 : 0 ≤ r) (h1 : r < p) : ⌊x / p⌋ = k := by
  rw [Int.floor_eq_iff]
  have ht : x / p * p = x := div_mul_cancel₀ x hp.ne.symm
  constructor
  · by_contra hc
    have := mul_lt_mul_of_pos_right (not_le.mp hc) hp
    nlinarith
  · by_contra hc
    have := mul_le_mul_of_nonneg_right (not_lt.mp hc) hp.le
    nlinarith

/-- After `n` calls of `update()` on the constructed cube each angle is `n` times its step
minus an integer multiple of `2 * π`, and lies in `[0, 2 * π)`. -/
lemma updateN_angles (cx cy : ℤ) (sl : ℝ) (n : ℕ) :
    (∃ k : ℤ, (updateN Real.cos Real.sin Real.sqrt (2 * Real.pi) n (ctor cx cy sl)).angleX
        = n * ((1 / 100 : ℚ) : ℝ) - 2 * Real.pi * k ∧
      0 ≤ (updateN Real.cos Real.sin Real.sqrt (2 * Real.pi) n (ctor cx cy sl)).angleX ∧
      (updateN Real.cos Real.sin Real.sqrt (2 * Real.pi) n (ctor cx cy sl)).angleX
        < 2 * Real.pi) ∧
    (∃ k : ℤ, (updateN Real.cos Real.sin Real.sqrt (2 * Real.pi) n (ctor cx cy sl)).angleY
        = n * ((2 / 100 : ℚ) : ℝ) - 2 * Real.pi * k ∧
      0 ≤ (updateN Real.cos Real.sin Real.sqrt (2 * Real.pi) n (ctor cx cy sl)).angleY ∧
      (updateN Real.cos Real.sin Real.sqrt (2 * Real.pi) n (ctor cx cy sl)).angleY
        < 2 * Real.pi) ∧
    (∃ k : ℤ, (updateN Real.cos Real.sin Real.sqrt (2 * Real.pi) n (ctor cx cy sl)).angleZ
        = n * ((3 / 100 : ℚ) : ℝ) - 2 * Real.pi * k ∧
      0 ≤ (updateN Real.cos Real.sin Real.sqrt (2 * Real.pi) n (ctor cx cy sl)).angleZ ∧
      (updateN Real.cos Real.sin Real.sqrt (2 * Real.pi) n (ctor cx cy sl)).angleZ
        < 2 * Real.pi) := by
  have hpi := Real.pi_gt_three
  induction n with
  | zero =>
    refine ⟨⟨0, ?_, ?_, ?_⟩, ⟨0, ?_, ?_, ?_⟩, ⟨0, ?_, ?_, ?_⟩⟩ <;>
      simp [updateN, ctor] <;> linarith
  | succ n ih =>
    obtain ⟨hx, hy, hz⟩ := ih
    have ex := wrap_add_step (1 / 100) (by norm_num) (by push_cast; linarith) n _ hx
    have ey := wrap_add_step (2 / 100) (by norm_num) (by push_cast; linarith) n _ hy
    have ez := wrap_add_step (3 / 100) (by norm_num) (by push_cast; linarith) n _ hz
    have cx1 : (((1 / 100 : ℚ) : ℝ)) = 0.01 := by norm_num
    have cy1 : (((2 / 100 : ℚ) : ℝ)) = 0.02 := by norm_num
    have cz1 : (((3 / 100 : ℚ) : ℝ)) = 0.03 := by norm_num
    rw [cx1] at ex
    rw [cy1] at ey
    rw [cz1] at ez
    rw [cx1] at hx ⊢
    rw [cy1] at hy ⊢
    rw [cz1] at hz ⊢
    exact ⟨ex, ey, ez⟩

end Cube3D

/-! ## Rotation about one axis -/

namespace Cube3D

/-- C1: with exact real arithmetic, `rotateX`, `rotateY` and `rotateZ` return the three
rotation formulas of the specification, for every point and every angle. -/
theorem rotate_formulas (x y z a : ℝ) :
    rotateX Real.cos Real.sin ⟨x, y, z⟩ a
        = ⟨x, y * Real.cos a - z * Real.sin a, y * Real.sin a + z * Real.cos a⟩ ∧
      rotateY Real.cos Real.sin ⟨x, y, z⟩ a
        = ⟨x * Real.cos a + z * Real.sin a, y, -x * Real.sin a + z * Real.cos a⟩ ∧
      rotateZ Real.cos Real.sin ⟨x, y, z⟩ a
        = ⟨x * Real.cos a - y * Real.sin a, x * Real.sin a + y * Real.cos a, z⟩ :=
  ⟨rfl, rfl, rfl⟩

/-- C9: rotating a point by the angle 0 about any of the three axes returns the point. -/
theorem rotate_zero (p : Point3D ℝ) :
    rotateX Real.cos Real.sin p 0 = p ∧ rotateY Real.cos Real.sin p 0 = p ∧
      rotateZ Real.cos Real.sin p 0 = p := by
  obtain ⟨x, y, z⟩ := p
  simp [rotateX, rotateY, rotateZ]

/-- C10: rotating by `a` and then by `-a` about the same axis returns the original point. -/
theorem rotate_neg_cancel (p : Point3D ℝ) (a : ℝ) :
    rotateX Real.cos Real.sin (rotateX Real.cos Real.sin p a) (-a) = p ∧
      rotateY Real.cos Real.sin (rotateY Real.cos Real.sin p a) (-a) = p ∧
      rotateZ Real.cos Real.sin (rotateZ Real.cos Real.sin p a) (-a) = p := by
  obtain ⟨x, y, z⟩ := p
  have h := Real.cos_sq_add_sin_sq a
  simp only [rotateX, rotateY, rotateZ, Real.cos_neg, Real.sin_neg, Point3D.mk.injEq,
    true_and, and_true]
  refine ⟨⟨?_, ?_⟩, ⟨?_, ?_⟩, ⟨?_, ?_⟩⟩
  · linear_combination y * h
  · linear_combination z * h
  · linear_combination x * h
  · linear_combination z * h
  · linear_combination x * h
  · linear_combination y * h

end Cube3D

/-! ## Projection and drawing -/

namespace Cube3D

/-- C3: `drawCube` issues exactly 12 `drawLine` commands, for the vertex pairs (0,1), (1,2),
(2,3), (3,0), (4,5), (5,6), (6,7), (7,4), (0,4), (1,5), (2,6), (3,7) in this order; the end
points for a pair are the projections of the two base vertices rotated about X, then Y, then Z
by the current angles, and every command carries the given colour. -/
theorem drawCube_commands (s : Cube3D ℝ) (color : Color) :
    drawCube Real.cos Real.sin s color
        = [(0, 1), (1, 2), (2, 3), (3, 0), (4, 5), (5, 6), (6, 7), (7, 4),
           (0, 4), (1, 5), (2, 6), (3, 7)].map
            (fun e : Fin 8 × Fin 8 =>
              DisplayCmd.drawLine
                (project s (rotateZ Real.cos Real.sin (rotateY Real.cos Real.sin
                  (rotateX Real.cos Real.sin (s.baseCubeVertices e.1) s.angleX) s.angleY)
                  s.angleZ)).x
                (project s (rotateZ Real.cos Real.sin (rotateY Real.cos Real.sin
                  (rotateX Real.cos Real.sin (s.baseCubeVertices e.1) s.angleX) s.angleY)
                  s.angleZ)).y
                (project s (rotateZ Real.cos Real.sin (rotateY Real.cos Real.sin
                  (rotateX Real.cos Real.sin (s.baseCubeVertices e.2) s.angleX) s.angleY)
                  s.angleZ)).x
                (project s (rotateZ Real.cos Real.sin (rotateY Real.cos Real.sin
                  (rotateX Real.cos Real.sin (s.baseCubeVertices e.2) s.angleX) s.angleY)
                  s.angleZ)).y
                color) ∧
      (drawCube Real.cos Real.sin s color).length = 12 := by
  rw [drawCube_eq_map]
  exact ⟨rfl, rfl⟩

/-- C4: `update()` issues one `fillCircle` at the centre with the erase radius in black,
followed by the 12 white `drawLine` commands of `draw()` on the new state, whose angles are the
old ones incremented by 0.01, 0.02, 0.03 and wrapped; `draw()` alone issues only the 12 white
`drawLine` commands of the current angles. -/
theorem update_commands (s : Cube3D ℝ) :
    (update Real.cos Real.sin Real.sqrt (2 * Real.pi) s).2
        = DisplayCmd.fillCircle s.centerX s.centerY (eraseRadius Real.sqrt s) ST77XX_BLACK ::
            draw Real.cos Real.sin (update Real.cos Real.sin Real.sqrt (2 * Real.pi) s).1 ∧
      (update Real.cos Real.sin Real.sqrt (2 * Real.pi) s).1
        = { s with
            angleX := if s.angleX + 0.01 > 2 * Real.pi then s.angleX + 0.01 - 2 * Real.pi
              else s.angleX + 0.01
            angleY := if s.angleY + 0.02 > 2 * Real.pi then s.angleY + 0.02 - 2 * Real.pi
              else s.angleY + 0.02
            angleZ := if s.angleZ + 0.03 > 2 * Real.pi then s.angleZ + 0.03 - 2 * Real.pi
              else s.angleZ + 0.03 } ∧
      (∀ t : Cube3D ℝ,
        draw Real.cos Real.sin t = cubeEdges.map (edgeCommand Real.cos Real.sin t ST77XX_WHITE) ∧
        (draw Real.cos Real.sin t).length = 12) := by
  refine ⟨rfl, rfl, fun t => ?_⟩
  rw [draw, drawCube_eq_map]
  exact ⟨rfl, rfl⟩

/-- C6 (the code at the failing input): for the freshly constructed cube with centre (40, 40)
and side length 1, `eraseCubeArea` fills a circle of radius 1, while `drawCube` puts vertex 0
at (39, 39), at squared distance 2 from the centre: outside the erase circle. -/
theorem erase_circle_misses_vertex :
    eraseCubeArea Real.sqrt (ctor 40 40 (1 : ℝ))
        = [DisplayCmd.fillCircle 40 40 1 ST77XX_BLACK] ∧
      project (ctor 40 40 (1 : ℝ)) (rotatedVertices Real.cos Real.sin (ctor 40 40 (1 : ℝ)) 0)
        = ⟨39, 39⟩ ∧
      (eraseRadius Real.sqrt (ctor 40 40 (1 : ℝ))) ^ 2
        < ((project (ctor 40 40 (1 : ℝ))
              (rotatedVertices Real.cos Real.sin (ctor 40 40 (1 : ℝ)) 0)).x - 40) ^ 2
          + ((project (ctor 40 40 (1 : ℝ))
              (rotatedVertices Real.cos Real.sin (ctor 40 40 (1 : ℝ)) 0)).y - 40) ^ 2 := by
  obtain ⟨hlo, hhi⟩ := sqrt_two_bounds
  have h1 : (0 : ℝ) < (ctor 40 40 (1 : ℝ)).sideLength := by norm_num [ctor]
  have ha : ⌊(1 : ℝ) * Real.sqrt 2⌋ = 1 := by
    rw [Int.floor_eq_iff]
    constructor <;> push_cast <;> linarith
  have hb : ⌊(1 : ℝ) / 2⌋ = 0 := by
    rw [Int.floor_eq_iff]
    constructor <;> norm_num
  have hr : eraseRadius Real.sqrt (ctor 40 40 (1 : ℝ)) = 1 := by
    rw [eraseRadius_of_pos _ h1]
    simp only [ctor, ha, hb]
    rfl
  have hneg : toInt (-1 : ℝ) = -1 := by
    unfold toInt
    rw [if_neg (by norm_num), Int.ceil_eq_iff]
    norm_num
  have hp : project (ctor 40 40 (1 : ℝ))
      (rotatedVertices Real.cos Real.sin (ctor 40 40 (1 : ℝ)) 0) = ⟨39, 39⟩ := by
    rw [rotatedVertices_apply]
    simp [project, ctor, rotateX, rotateY, rotateZ, hneg]
  refine ⟨?_, hp, ?_⟩
  · simp only [eraseCubeArea, hr]
    rfl
  · rw [hr, hp]
    norm_num

end Cube3D

/-! ## The rotation angles under `update` -/

namespace Cube3D

/-- C7: starting from the constructed cube, after `N` calls of `update()` the three angles are
`N * 0.01`, `N * 0.02` and `N * 0.03` reduced modulo `2 * π` (the multiple of `2 * π` taken off
is the floor of the quotient), so each lies in `[0, 2 * π)`. -/
theorem updateN_angles_mod (cx cy : ℤ) (sl : ℝ) (N : ℕ) :
    ((updateN Real.cos Real.sin Real.sqrt (2 * Real.pi) N (ctor cx cy sl)).angleX
        = N * 0.01 - ⌊(N : ℝ) * 0.01 / (2 * Real.pi)⌋ * (2 * Real.pi) ∧
      (updateN Real.cos Real.sin Real.sqrt (2 * Real.pi) N (ctor cx cy sl)).angleY
        = N * 0.02 - ⌊(N : ℝ) * 0.02 / (2 * Real.pi)⌋ * (2 * Real.pi) ∧
      (updateN Real.cos Real.sin Real.sqrt (2 * Real.pi) N (ctor cx cy sl)).angleZ
        = N * 0.03 - ⌊(N : ℝ) * 0.03 / (2 * Real.pi)⌋ * (2 * Real.pi)) ∧
      AnglesInHalfOpen (2 * Real.pi)
        (updateN Real.cos Real.sin Real.sqrt (2 * Real.pi) N (ctor cx cy sl)) := by
  obtain ⟨⟨kx, hx, hx0, hx1⟩, ⟨ky, hy, hy0, hy1⟩, ⟨kz, hz, hz0, hz1⟩⟩ :=
    updateN_angles cx cy sl N
  have hp : (0 : ℝ) < 2 * Real.pi := by linarith [Real.pi_pos]
  have cx1 : (((1 / 100 : ℚ) : ℝ)) = 0.01 := by norm_num
  have cy1 : (((2 / 100 : ℚ) : ℝ)) = 0.02 := by norm_num
  have cz1 : (((3 / 100 : ℚ) : ℝ)) = 0.03 := by norm_num
  rw [cx1] at hx
  rw [cy1] at hy
  rw [cz1] at hz
  have fx := floor_div_of_remainder _ _ _ kx hp hx hx0 hx1
  have fy := floor_div_of_remainder _ _ _ ky hp hy hy0 hy1
  have fz := floor_div_of_remainder _ _ _ kz hp hz hz0 hz1
  refine ⟨⟨?_, ?_, ?_⟩, ⟨hx0, hx1⟩, ⟨hy0, hy1⟩, ⟨hz0, hz1⟩⟩
  · rw [fx, hx]
    ring
  · rw [fy, hy]
    ring
  · rw [fz, hz]
    ring

end Cube3D

/-! ## Truncation of a doubled value -/

namespace Cube3D

/-- The floor of a doubled value: twice the floor, plus one when the fractional part reaches
one half. -/
lemma floor_two_mul (a : ℝ) :
    ⌊2 * a⌋ = 2 * ⌊a⌋ + (if Int.fract a < 1 / 2 then 0 else 1) := by
  have h1 := Int.floor_add_fract a
  have h2 := Int.fract_nonneg a
  have h3 := Int.fract_lt_one a
  split_ifs with h <;> rw [Int.floor_eq_iff] <;> push_cast <;> constructor <;> linarith

/-- Truncation of a doubled value. -/
lemma toInt_two_mul (v : ℝ) :
    toInt (2 * v)
      = 2 * toInt v + (SignType.sign v : ℤ) * (if Int.fract |v| < 1 / 2 then 0 else 1) := by
  have hs : SignType.sign (2 * v) = SignType.sign v := by
    rw [sign_mul, sign_pos (by norm_num : (0 : ℝ) < 2), one_mul]
  rw [toInt_eq_sign_mul_floor_abs, toInt_eq_sign_mul_floor_abs, hs, abs_mul, abs_two,
    floor_two_mul]
  ring

end Cube3D

/-! ## The base vertices and the norm of the rotated vertices -/

namespace Cube3D

/-- The conversion `int(f)` of a whole number is that number. -/
lemma toInt_intCast (z : ℤ) : toInt (z : ℝ) = z := by
  unfold toInt
  split_ifs <;> simp

/-- The array `baseCubeVertices` after the constructor. -/
lemma ctor_base (cx cy : ℤ) (sl : ℝ) :
    (ctor cx cy sl).baseCubeVertices 0 = ⟨-1, -1, -1⟩ ∧
    (ctor cx cy sl).baseCubeVertices 1 = ⟨-1, 1, -1⟩ ∧
    (ctor cx cy sl).baseCubeVertices 2 = ⟨1, 1, -1⟩ ∧
    (ctor cx cy sl).baseCubeVertices 3 = ⟨1, -1, -1⟩ ∧
    (ctor cx cy sl).baseCubeVertices 4 = ⟨-1, -1, 1⟩ ∧
    (ctor cx cy sl).baseCubeVertices 5 = ⟨-1, 1, 1⟩ ∧
    (ctor cx cy sl).baseCubeVertices 6 = ⟨1, 1, 1⟩ ∧
    (ctor cx cy sl).baseCubeVertices 7 = ⟨1, -1, 1⟩ :=
  ⟨rfl, rfl, rfl, rfl, rfl, rfl, rfl, rfl⟩

/-- Every base vertex of the constructed cube has its three coordinates in `{-1, 1}`. -/
lemma ctor_base_coords (cx cy : ℤ) (sl : ℝ) (i : Fin 8) :
    ((ctor cx cy sl).baseCubeVertices i).x ^ 2 = 1 ∧
    ((ctor cx cy sl).baseCubeVertices i).y ^ 2 = 1 ∧
    ((ctor cx cy sl).baseCubeVertices i).z ^ 2 = 1 := by
  obtain ⟨h0, h1, h2, h3, h4, h5, h6, h7⟩ := ctor_base cx cy sl
  fin_cases i
  · simp only [Fin.zero_eta, h0]; norm_num
  · simp only [Fin.mk_one, h1]; norm_num
  · rw [show (⟨2, by decide⟩ : Fin 8) = 2 from rfl, h2]; norm_num
  · rw [show (⟨3, by decide⟩ : Fin 8) = 3 from rfl, h3]; norm_num
  · rw [show (⟨4, by decide⟩ : Fin 8) = 4 from rfl, h4]; norm_num
  · rw [show (⟨5, by decide⟩ : Fin 8) = 5 from rfl, h5]; norm_num
  · rw [show (⟨6, by decide⟩ : Fin 8) = 6 from rfl, h6]; norm_num
  · rw [show (⟨7, by decide⟩ : Fin 8) = 7 from rfl, h7]; norm_num

/-- A rotation about the X axis keeps the squared norm. -/
lemma normSq_rotateX (p : Point3D ℝ) (a : ℝ) :
    normSq (rotateX Real.cos Real.sin p a) = normSq p := by
  simp only [normSq, rotateX]
  linear_combination (p.y ^ 2 + p.z ^ 2) * Real.cos_sq_add_sin_sq a

/-- A rotation about the Y axis keeps the squared norm. -/
lemma normSq_rotateY (p : Point3D ℝ) (a : ℝ) :
    normSq (rotateY Real.cos Real.sin p a) = normSq p := by
  simp only [normSq, rotateY]
  linear_combination (p.x ^ 2 + p.z ^ 2) * Real.cos_sq_add_sin_sq a

/-- A rotation about the Z axis keeps the squared norm. -/
lemma normSq_rotateZ (p : Point3D ℝ) (a : ℝ) :
    normSq (rotateZ Real.cos Real.sin p a) = normSq p := by
  simp only [normSq, rotateZ]
  linear_combination (p.x ^ 2 + p.y ^ 2) * Real.cos_sq_add_sin_sq a

/-- Every rotated vertex of a cube with the constructor's base vertices has squared norm 3. -/
lemma normSq_rotatedVertices (cx cy : ℤ) (sl a b c : ℝ) (i : Fin 8) :
    normSq (rotatedVertices Real.cos Real.sin (withAngles (ctor cx cy sl) a b c) i) = 3 := by
  rw [rotatedVertices_apply, normSq_rotateZ, normSq_rotateY, normSq_rotateX]
  obtain ⟨hx, hy, hz⟩ := ctor_base_coords cx cy sl i
  show ((ctor cx cy sl).baseCubeVertices i).x ^ 2 + ((ctor cx cy sl).baseCubeVertices i).y ^ 2
    + ((ctor cx cy sl).baseCubeVertices i).z ^ 2 = 3
  rw [hx, hy, hz]
  norm_num

/-- C18: each of `rotateX`, `rotateY`, `rotateZ` keeps the squared Euclidean norm of a point,
and every rotated base vertex that `drawCube` uses has squared norm 3, whatever the angles. -/
theorem rotate_preserves_norm (p : Point3D ℝ) (a b c : ℝ) (cx cy : ℤ) (sl : ℝ) (i : Fin 8) :
    (rotateX Real.cos Real.sin p a).x ^ 2 + (rotateX Real.cos Real.sin p a).y ^ 2
        + (rotateX Real.cos Real.sin p a).z ^ 2 = p.x ^ 2 + p.y ^ 2 + p.z ^ 2 ∧
      (rotateY Real.cos Real.sin p a).x ^ 2 + (rotateY Real.cos Real.sin p a).y ^ 2
        + (rotateY Real.cos Real.sin p a).z ^ 2 = p.x ^ 2 + p.y ^ 2 + p.z ^ 2 ∧
      (rotateZ Real.cos Real.sin p a).x ^ 2 + (rotateZ Real.cos Real.sin p a).y ^ 2
        + (rotateZ Real.cos Real.sin p a).z ^ 2 = p.x ^ 2 + p.y ^ 2 + p.z ^ 2 ∧
      normSq (rotatedVertices Real.cos Real.sin (withAngles (ctor cx cy sl) a b c) i) = 3 :=
  ⟨normSq_rotateX p a, normSq_rotateY p a, normSq_rotateZ p a,
    normSq_rotatedVertices cx cy sl a b c i⟩

end Cube3D

/-! ## What the methods leave unchanged -/

namespace Cube3D

/-- A property of all eight vertex indices follows from its eight instances. -/
lemma forall_fin8 {P : Fin 8 → Prop} (h0 : P 0) (h1 : P 1) (h2 : P 2) (h3 : P 3) (h4 : P 4)
    (h5 : P 5) (h6 : P 6) (h7 : P 7) (i : Fin 8) : P i := by
  fin_cases i <;> assumption

/-- No sequence of `draw()` and `update()` calls changes the base vertices. -/
lemma run_baseCubeVertices (ms : List Method) (s : Cube3D ℝ) :
    (run Real.cos Real.sin Real.sqrt (2 * Real.pi) ms s).baseCubeVertices
      = s.baseCubeVertices := by
  induction ms generalizing s with
  | nil => rfl
  | cons m ms ih =>
    rw [run, ih]
    cases m <;> rfl

/-- The base vertices of the constructed cube are pairwise distinct. -/
lemma ctor_base_injective (cx cy : ℤ) (sl : ℝ) :
    Function.Injective (ctor cx cy sl).baseCubeVertices := by
  obtain ⟨h0, h1, h2, h3, h4, h5, h6, h7⟩ := ctor_base cx cy sl
  have key : ∀ i : Fin 8,
      (if ((ctor cx cy sl).baseCubeVertices i).z < 0 then
        (if ((ctor cx cy sl).baseCubeVertices i).x < 0 then
          (if ((ctor cx cy sl).baseCubeVertices i).y < 0 then (0 : Fin 8) else 1)
        else (if ((ctor cx cy sl).baseCubeVertices i).y < 0 then 3 else 2))
      else
        (if ((ctor cx cy sl).baseCubeVertices i).x < 0 then
          (if ((ctor cx cy sl).baseCubeVertices i).y < 0 then 4 else 5)
        else (if ((ctor cx cy sl).baseCubeVertices i).y < 0 then 7 else 6))) = i := by
    refine forall_fin8 ?_ ?_ ?_ ?_ ?_ ?_ ?_ ?_
    · rw [h0]; norm_num
    · rw [h1]; norm_num
    · rw [h2]; norm_num
    · rw [h3]; norm_num
    · rw [h4]; norm_num
    · rw [h5]; norm_num
    · rw [h6]; norm_num
    · rw [h7]; norm_num
  intro i j hij
  rw [← key i, ← key j, hij]

/-- C13: `update()` leaves `centerX`, `centerY`, `sideLength` and the base vertices as they
were (the new state is the old one with other angles), and `draw()` leaves the whole state,
angles included, as it was. -/
theorem methods_frame (s : Cube3D ℝ) :
    (update Real.cos Real.sin Real.sqrt (2 * Real.pi) s).1.centerX = s.centerX ∧
      (update Real.cos Real.sin Real.sqrt (2 * Real.pi) s).1.centerY = s.centerY ∧
      (update Real.cos Real.sin Real.sqrt (2 * Real.pi) s).1.sideLength = s.sideLength ∧
      (update Real.cos Real.sin Real.sqrt (2 * Real.pi) s).1.baseCubeVertices
        = s.baseCubeVertices ∧
      (update Real.cos Real.sin Real.sqrt (2 * Real.pi) s).1
        = withAngles s (update Real.cos Real.sin Real.sqrt (2 * Real.pi) s).1.angleX
            (update Real.cos Real.sin Real.sqrt (2 * Real.pi) s).1.angleY
            (update Real.cos Real.sin Real.sqrt (2 * Real.pi) s).1.angleZ ∧
      (call Real.cos Real.sin Real.sqrt (2 * Real.pi) Method.update s).1
        = (update Real.cos Real.sin Real.sqrt (2 * Real.pi) s).1 ∧
      (call Real.cos Real.sin Real.sqrt (2 * Real.pi) Method.draw s).1 = s :=
  ⟨rfl, rfl, rfl, rfl, rfl, rfl, rfl⟩

/-- C14: the constructor yields angles 0 and the given centre and scale; its 8 base vertices
are pairwise distinct, each has every coordinate in `{-1, 1}`, every corner of the cube
`{-1, 1}^3` is one of them, and the base vertices are the same in every state reached by a
sequence of `draw()` and `update()` calls. -/
theorem ctor_and_base_invariant (cx cy : ℤ) (sl : ℝ) (ms : List Method) :
    ((ctor cx cy sl).angleX = 0 ∧ (ctor cx cy sl).angleY = 0 ∧ (ctor cx cy sl).angleZ = 0 ∧
      (ctor cx cy sl).centerX = cx ∧ (ctor cx cy sl).centerY = cy ∧
      (ctor cx cy sl).sideLength = sl) ∧
    (run Real.cos Real.sin Real.sqrt (2 * Real.pi) ms (ctor cx cy sl)).baseCubeVertices
      = (ctor cx cy sl).baseCubeVertices ∧
    Function.Injective
      (run Real.cos Real.sin Real.sqrt (2 * Real.pi) ms (ctor cx cy sl)).baseCubeVertices ∧
    (∀ i : Fin 8,
      (((run Real.cos Real.sin Real.sqrt (2 * Real.pi) ms (ctor cx cy sl)).baseCubeVertices i).x
          = -1 ∨
        ((run Real.cos Real.sin Real.sqrt (2 * Real.pi) ms (ctor cx cy sl)).baseCubeVertices i).x
          = 1) ∧
      (((run Real.cos Real.sin Real.sqrt (2 * Real.pi) ms (ctor cx cy sl)).baseCubeVertices i).y
          = -1 ∨
        ((run Real.cos Real.sin Real.sqrt (2 * Real.pi) ms (ctor cx cy sl)).baseCubeVertices i).y
          = 1) ∧
      (((run Real.cos Real.sin Real.sqrt (2 * Real.pi) ms (ctor cx cy sl)).baseCubeVertices i).z
          = -1 ∨
        ((run Real.cos Real.sin Real.sqrt (2 * Real.pi) ms (ctor cx cy sl)).baseCubeVertices i).z
          = 1)) ∧
    (∀ x y z : ℝ, (x = -1 ∨ x = 1) → (y = -1 ∨ y = 1) → (z = -1 ∨ z = 1) →
      ∃ i : Fin 8,
        (run Real.cos Real.sin Real.sqrt (2 * Real.pi) ms (ctor cx cy sl)).baseCubeVertices i
          = ⟨x, y, z⟩) := by
  obtain ⟨h0, h1, h2, h3, h4, h5, h6, h7⟩ := ctor_base cx cy sl
  rw [run_baseCubeVertices]
  refine ⟨⟨rfl, rfl, rfl, rfl, rfl, rfl⟩, rfl, ctor_base_injective cx cy sl, ?_, ?_⟩
  · refine forall_fin8 ?_ ?_ ?_ ?_ ?_ ?_ ?_ ?_
    · rw [h0]; norm_num
    · rw [h1]; norm_num
    · rw [h2]; norm_num
    · rw [h3]; norm_num
    · rw [h4]; norm_num
    · rw [h5]; norm_num
    · rw [h6]; norm_num
    · rw [h7]; norm_num
  · intro x y z hx hy hz
    rcases hx with rfl | rfl <;> rcases hy with rfl | rfl <;> rcases hz with rfl | rfl
    · exact ⟨0, h0⟩
    · exact ⟨4, h4⟩
    · exact ⟨1, h1⟩
    · exact ⟨5, h5⟩
    · exact ⟨3, h3⟩
    · exact ⟨7, h7⟩
    · exact ⟨2, h2⟩
    · exact ⟨6, h6⟩

end Cube3D

/-! ## The edges drawn by `drawCube` -/

namespace Cube3D

/-- C15: the 12 vertex pairs that `drawCube` draws are pairwise distinct as unordered pairs;
the first four join base vertices with `z = -1`, the next four join base vertices with
`z = 1`, the last four join a `z = -1` vertex to a `z = 1` vertex; the two base vertices of
every pair differ in exactly one coordinate, and every pair of base vertices that differ in
exactly one coordinate is drawn: the pairs are exactly the edges of the cube. -/
theorem drawCube_edges_are_cube_edges (cx cy : ℤ) (sl : ℝ) :
    (∀ (s : Cube3D ℝ) (color : Color),
      drawCube Real.cos Real.sin s color
        = cubeEdges.map (edgeCommand Real.cos Real.sin s color)) ∧
    cubeEdges.length = 12 ∧
    (cubeEdges.map (fun e => s(e.1, e.2))).Nodup ∧
    (∀ e ∈ cubeEdges.take 4,
      ((ctor cx cy sl).baseCubeVertices e.1).z = -1 ∧
        ((ctor cx cy sl).baseCubeVertices e.2).z = -1) ∧
    (∀ e ∈ (cubeEdges.drop 4).take 4,
      ((ctor cx cy sl).baseCubeVertices e.1).z = 1 ∧
        ((ctor cx cy sl).baseCubeVertices e.2).z = 1) ∧
    (∀ e ∈ cubeEdges.drop 8,
      ((ctor cx cy sl).baseCubeVertices e.1).z = -1 ∧
        ((ctor cx cy sl).baseCubeVertices e.2).z = 1) ∧
    (∀ e ∈ cubeEdges,
      diffCount ((ctor cx cy sl).baseCubeVertices e.1)
        ((ctor cx cy sl).baseCubeVertices e.2) = 1) ∧
    (∀ i j : Fin 8,
      diffCount ((ctor cx cy sl).baseCubeVertices i) ((ctor cx cy sl).baseCubeVertices j) = 1 →
        (i, j) ∈ cubeEdges ∨ (j, i) ∈ cubeEdges) := by
  obtain ⟨h0, h1, h2, h3, h4, h5, h6, h7⟩ := ctor_base cx cy sl
  refine ⟨fun s color => drawCube_eq_map _ _ s color, rfl, by decide, ?_, ?_, ?_, ?_, ?_⟩
  · intro e he
    simp only [cubeEdges, List.take, List.mem_cons, List.mem_singleton, List.not_mem_nil,
      or_false] at he
    rcases he with rfl | rfl | rfl | rfl <;> simp [h0, h1, h2, h3]
  · intro e he
    simp only [cubeEdges, List.take, List.drop, List.mem_cons, List.mem_singleton,
      List.not_mem_nil, or_false] at he
    rcases he with rfl | rfl | rfl | rfl <;> simp [h4, h5, h6, h7]
  · intro e he
    simp only [cubeEdges, List.drop, List.mem_cons, List.mem_singleton, List.not_mem_nil,
      or_false] at he
    rcases he with rfl | rfl | rfl | rfl <;> simp [h0, h1, h2, h3, h4, h5, h6, h7]
  · intro e he
    simp only [cubeEdges, List.mem_cons, List.mem_singleton, List.not_mem_nil, or_false] at he
    rcases he with rfl | rfl | rfl | rfl | rfl | rfl | rfl | rfl | rfl | rfl | rfl | rfl <;>
      norm_num [diffCount, h0, h1, h2, h3, h4, h5, h6, h7]
  · refine forall_fin8 ?_ ?_ ?_ ?_ ?_ ?_ ?_ ?_ <;> refine forall_fin8 ?_ ?_ ?_ ?_ ?_ ?_ ?_ ?_ <;>
      norm_num [diffCount, h0, h1, h2, h3, h4, h5, h6, h7, cubeEdges]

end Cube3D

/-! ## The extent of the unrotated cube on the display -/

namespace Cube3D

/-- With all angles 0 the loop of `drawCube` reproduces the base vertices. -/
lemma rotatedVertices_ctor (cx cy : ℤ) (sl : ℝ) (i : Fin 8) :
    rotatedVertices Real.cos Real.sin (ctor cx cy sl) i = (ctor cx cy sl).baseCubeVertices i := by
  rw [rotatedVertices_apply]
  show rotateZ Real.cos Real.sin (rotateY Real.cos Real.sin (rotateX Real.cos Real.sin
    ((ctor cx cy sl).baseCubeVertices i) 0) 0) 0 = (ctor cx cy sl).baseCubeVertices i
  simp [rotateX, rotateY, rotateZ]

/-- The display points of the unrotated cube with a positive side length: each coordinate is
the centre plus or minus the floor of the side length. -/
lemma project_unrotated (cx cy : ℤ) (sl : ℝ) (h : 0 < sl) :
    ∀ i : Fin 8,
      ((project (ctor cx cy sl) (rotatedVertices Real.cos Real.sin (ctor cx cy sl) i)).x
          = cx - ⌊sl⌋ ∨
        (project (ctor cx cy sl) (rotatedVertices Real.cos Real.sin (ctor cx cy sl) i)).x
          = cx + ⌊sl⌋) ∧
      ((project (ctor cx cy sl) (rotatedVertices Real.cos Real.sin (ctor cx cy sl) i)).y
          = cy - ⌊sl⌋ ∨
        (project (ctor cx cy sl) (rotatedVertices Real.cos Real.sin (ctor cx cy sl) i)).y
          = cy + ⌊sl⌋) := by
  obtain ⟨h0, h1, h2, h3, h4, h5, h6, h7⟩ := ctor_base cx cy sl
  have hpos : toInt ((1 : ℝ) * sl) = ⌊sl⌋ := by
    rw [one_mul, toInt_of_nonneg h.le]
  have hneg : toInt ((-1 : ℝ) * sl) = -⌊sl⌋ := by
    unfold toInt
    rw [if_neg (by linarith), neg_one_mul, Int.ceil_neg]
  have hpos2 : toInt sl = ⌊sl⌋ := toInt_of_nonneg h.le
  have hneg2 : toInt (-sl) = -⌊sl⌋ := by
    rw [← neg_one_mul, hneg]
  have hc : (ctor cx cy sl).centerX = cx ∧ (ctor cx cy sl).centerY = cy ∧
      (ctor cx cy sl).sideLength = sl := ⟨rfl, rfl, rfl⟩
  obtain ⟨hcx, hcy, hsl⟩ := hc
  intro i
  rw [rotatedVertices_ctor]
  simp only [project, hcx, hcy, hsl]
  revert i
  refine forall_fin8 ?_ ?_ ?_ ?_ ?_ ?_ ?_ ?_
  · rw [h0]; simp [hneg2, hpos2, sub_eq_add_neg]
  · rw [h1]; simp [hneg2, hpos2, sub_eq_add_neg]
  · rw [h2]; simp [hneg2, hpos2, sub_eq_add_neg]
  · rw [h3]; simp [hneg2, hpos2, sub_eq_add_neg]
  · rw [h4]; simp [hneg2, hpos2, sub_eq_add_neg]
  · rw [h5]; simp [hneg2, hpos2, sub_eq_add_neg]
  · rw [h6]; simp [hneg2, hpos2, sub_eq_add_neg]
  · rw [h7]; simp [hneg2, hpos2, sub_eq_add_neg]

/-- The corners drawn for vertices 0 and 2 of the unrotated cube. -/
lemma project_unrotated_corners (cx cy : ℤ) (sl : ℝ) (h : 0 < sl) :
    project (ctor cx cy sl) (rotatedVertices Real.cos Real.sin (ctor cx cy sl) 0)
        = ⟨cx - ⌊sl⌋, cy - ⌊sl⌋⟩ ∧
      project (ctor cx cy sl) (rotatedVertices Real.cos Real.sin (ctor cx cy sl) 2)
        = ⟨cx + ⌊sl⌋, cy + ⌊sl⌋⟩ := by
  have hpos : toInt ((1 : ℝ) * sl) = ⌊sl⌋ := by
    rw [one_mul, toInt_of_nonneg h.le]
  have hneg : toInt ((-1 : ℝ) * sl) = -⌊sl⌋ := by
    unfold toInt
    rw [if_neg (by linarith), neg_one_mul, Int.ceil_neg]
  have hc : (ctor cx cy sl).centerX = cx ∧ (ctor cx cy sl).centerY = cy ∧
      (ctor cx cy sl).sideLength = sl := ⟨rfl, rfl, rfl⟩
  obtain ⟨hcx, hcy, hsl⟩ := hc
  rw [rotatedVertices_ctor, rotatedVertices_ctor, (ctor_base cx cy sl).1,
    (ctor_base cx cy sl).2.2.1]
  simp only [project, hcx, hcy, hsl, hneg, hpos, sub_eq_add_neg, and_self]

/-- The extent of the unrotated cube on the display, for a positive side length: the largest
`x` and `y` are the centre plus the floor of the side length, the smallest the centre minus
it. -/
lemma extent_unrotated (cx cy : ℤ) (sl : ℝ) (h : 0 < sl) :
    (Finset.univ.sup' Finset.univ_nonempty (fun i : Fin 8 =>
        (project (ctor cx cy sl) (rotatedVertices Real.cos Real.sin (ctor cx cy sl) i)).x)
        = cx + ⌊sl⌋ ∧
      Finset.univ.inf' Finset.univ_nonempty (fun i : Fin 8 =>
        (project (ctor cx cy sl) (rotatedVertices Real.cos Real.sin (ctor cx cy sl) i)).x)
        = cx - ⌊sl⌋) ∧
    (Finset.univ.sup' Finset.univ_nonempty (fun i : Fin 8 =>
        (project (ctor cx cy sl) (rotatedVertices Real.cos Real.sin (ctor cx cy sl) i)).y)
        = cy + ⌊sl⌋ ∧
      Finset.univ.inf' Finset.univ_nonempty (fun i : Fin 8 =>
        (project (ctor cx cy sl) (rotatedVertices Real.cos Real.sin (ctor cx cy sl) i)).y)
        = cy - ⌊sl⌋) := by
  have hn : 0 ≤ ⌊sl⌋ := Int.floor_nonneg.mpr h.le
  have hall := project_unrotated cx cy sl h
  obtain ⟨c0, c2⟩ := project_unrotated_corners cx cy sl h
  refine ⟨⟨le_antisymm ?_ ?_, le_antisymm ?_ ?_⟩, ⟨le_antisymm ?_ ?_, le_antisymm ?_ ?_⟩⟩
  · refine Finset.sup'_le _ _ (fun i _ => ?_)
    rcases (hall i).1 with hx | hx <;> omega
  · have := Finset.le_sup' (fun i : Fin 8 =>
      (project (ctor cx cy sl) (rotatedVertices Real.cos Real.sin (ctor cx cy sl) i)).x)
      (Finset.mem_univ 2)
    simpa only [c2] using this
  · have := Finset.inf'_le (fun i : Fin 8 =>
      (project (ctor cx cy sl) (rotatedVertices Real.cos Real.sin (ctor cx cy sl) i)).x)
      (Finset.mem_univ 0)
    simpa only [c0] using this
  · refine Finset.le_inf' _ _ (fun i _ => ?_)
    rcases (hall i).1 with hx | hx <;> omega
  · refine Finset.sup'_le _ _ (fun i _ => ?_)
    rcases (hall i).2 with hy | hy <;> omega
  · have := Finset.le_sup' (fun i : Fin 8 =>
      (project (ctor cx cy sl) (rotatedVertices Real.cos Real.sin (ctor cx cy sl) i)).y)
      (Finset.mem_univ 2)
    simpa only [c2] using this
  · have := Finset.inf'_le (fun i : Fin 8 =>
      (project (ctor cx cy sl) (rotatedVertices Real.cos Real.sin (ctor cx cy sl) i)).y)
      (Finset.mem_univ 0)
    simpa only [c0] using this
  · refine Finset.le_inf' _ _ (fun i _ => ?_)
    rcases (hall i).2 with hy | hy <;> omega

end Cube3D

namespace Cube3D

/-- C16 (counterexample): for side length 1.5 and centre (40, 40) the unrotated cube is drawn
with `x` from 39 to 41, so it is 2 wide, not `2 * 1.5 = 3`. -/
theorem face_width_not_double_side :
    Finset.univ.sup' Finset.univ_nonempty (fun i : Fin 8 =>
        (project (ctor 40 40 (3 / 2 : ℝ))
          (rotatedVertices Real.cos Real.sin (ctor 40 40 (3 / 2 : ℝ)) i)).x)
      - Finset.univ.inf' Finset.univ_nonempty (fun i : Fin 8 =>
        (project (ctor 40 40 (3 / 2 : ℝ))
          (rotatedVertices Real.cos Real.sin (ctor 40 40 (3 / 2 : ℝ)) i)).x) = 2 ∧
    (((Finset.univ.sup' Finset.univ_nonempty (fun i : Fin 8 =>
        (project (ctor 40 40 (3 / 2 : ℝ))
          (rotatedVertices Real.cos Real.sin (ctor 40 40 (3 / 2 : ℝ)) i)).x)
      - Finset.univ.inf' Finset.univ_nonempty (fun i : Fin 8 =>
        (project (ctor 40 40 (3 / 2 : ℝ))
          (rotatedVertices Real.cos Real.sin (ctor 40 40 (3 / 2 : ℝ)) i)).x) : ℤ) : ℝ)
      ≠ 2 * (3 / 2 : ℝ)) := by
  have hf : ⌊(3 / 2 : ℝ)⌋ = 1 := by
    rw [Int.floor_eq_iff]
    norm_num
  obtain ⟨⟨hmax, hmin⟩, -⟩ := extent_unrotated 40 40 (3 / 2) (by norm_num)
  rw [hmax, hmin, hf]
  norm_num

/-- C16 (amended): for a positive side length the unrotated cube is drawn
`2 * floor(sideLength)` wide and high: over the 8 projected vertices both `max x - min x` and
`max y - min y` are twice the side length truncated to an integer. -/
theorem unrotated_face_extent (cx cy : ℤ) (sl : ℝ) (h : 0 < sl) :
    Finset.univ.sup' Finset.univ_nonempty (fun i : Fin 8 =>
        (project (ctor cx cy sl) (rotatedVertices Real.cos Real.sin (ctor cx cy sl) i)).x)
      - Finset.univ.inf' Finset.univ_nonempty (fun i : Fin 8 =>
        (project (ctor cx cy sl) (rotatedVertices Real.cos Real.sin (ctor cx cy sl) i)).x)
      = 2 * ⌊sl⌋ ∧
    Finset.univ.sup' Finset.univ_nonempty (fun i : Fin 8 =>
        (project (ctor cx cy sl) (rotatedVertices Real.cos Real.sin (ctor cx cy sl) i)).y)
      - Finset.univ.inf' Finset.univ_nonempty (fun i : Fin 8 =>
        (project (ctor cx cy sl) (rotatedVertices Real.cos Real.sin (ctor cx cy sl) i)).y)
      = 2 * ⌊sl⌋ := by
  obtain ⟨⟨hxmax, hxmin⟩, ⟨hymax, hymin⟩⟩ := extent_unrotated cx cy sl h
  rw [hxmax, hxmin, hymax, hymin]
  constructor <;> ring

/-- C16 (witness): side length 20 is positive, and the unrotated cube is `2 * floor 20` wide
and high. -/
theorem unrotated_face_extent_witness :
    (0 : ℝ) < 20 ∧
    (Finset.univ.sup' Finset.univ_nonempty (fun i : Fin 8 =>
        (project (ctor 40 40 (20 : ℝ))
          (rotatedVertices Real.cos Real.sin (ctor 40 40 (20 : ℝ)) i)).x)
      - Finset.univ.inf' Finset.univ_nonempty (fun i : Fin 8 =>
        (project (ctor 40 40 (20 : ℝ))
          (rotatedVertices Real.cos Real.sin (ctor 40 40 (20 : ℝ)) i)).x)
      = 2 * ⌊(20 : ℝ)⌋ ∧
    Finset.univ.sup' Finset.univ_nonempty (fun i : Fin 8 =>
        (project (ctor 40 40 (20 : ℝ))
          (rotatedVertices Real.cos Real.sin (ctor 40 40 (20 : ℝ)) i)).y)
      - Finset.univ.inf' Finset.univ_nonempty (fun i : Fin 8 =>
        (project (ctor 40 40 (20 : ℝ))
          (rotatedVertices Real.cos Real.sin (ctor 40 40 (20 : ℝ)) i)).y)
      = 2 * ⌊(20 : ℝ)⌋) :=
  ⟨by norm_num, unrotated_face_extent 40 40 20 (by norm_num)⟩

end Cube3D

/-! ## The erase circle -/

namespace Cube3D

/-- Sharper bounds on the square roots of two and three. -/
lemma sqrt_two_three_bounds : (1.41421 : ℝ) < Real.sqrt 2 ∧ Real.sqrt 3 < 1.73206 := by
  have h2 : Real.sqrt 2 ^ 2 = 2 := Real.sq_sqrt (by norm_num)
  have h3 : Real.sqrt 3 ^ 2 = 3 := Real.sq_sqrt (by norm_num)
  have p2 : (0 : ℝ) ≤ Real.sqrt 2 := Real.sqrt_nonneg 2
  have p3 : (0 : ℝ) ≤ Real.sqrt 3 := Real.sqrt_nonneg 3
  constructor
  · by_contra hc
    nlinarith [not_lt.mp hc]
  · by_contra hc
    nlinarith [not_lt.mp hc]

/-- The erase radius of a cube with side length 1 is 1. -/
lemma eraseRadius_one (cx cy : ℤ) : eraseRadius Real.sqrt (ctor cx cy (1 : ℝ)) = 1 := by
  obtain ⟨hlo, hhi⟩ := sqrt_two_bounds
  have h1 : (0 : ℝ) < (ctor cx cy (1 : ℝ)).sideLength := by norm_num [ctor]
  have ha : ⌊(1 : ℝ) * Real.sqrt 2⌋ = 1 := by
    rw [Int.floor_eq_iff]
    constructor <;> push_cast <;> linarith
  have hb : ⌊(1 : ℝ) / 2⌋ = 0 := by
    rw [Int.floor_eq_iff]
    constructor <;> norm_num
  rw [eraseRadius_of_pos _ h1]
  simp only [ctor, ha, hb]
  rfl

/-- From side length 2 on, the erase radius is at least `sideLength * sqrt 2`. -/
lemma eraseRadius_ge_half_diagonal (s : Cube3D ℝ) (h : 2 ≤ s.sideLength) :
    s.sideLength * Real.sqrt 2 ≤ (eraseRadius Real.sqrt s : ℝ) := by
  rw [eraseRadius_of_pos s (by linarith)]
  have h1 := Int.lt_floor_add_one (s.sideLength * Real.sqrt 2)
  have h2 : (1 : ℤ) ≤ ⌊s.sideLength / 2⌋ := by
    rw [Int.le_floor]
    push_cast
    linarith
  have h3 : (1 : ℝ) ≤ (⌊s.sideLength / 2⌋ : ℝ) := by exact_mod_cast h2
  push_cast
  linarith

/-- Truncation toward zero does not increase the square. -/
lemma toInt_sq_le (t : ℝ) : ((toInt t : ℤ) : ℝ) ^ 2 ≤ t ^ 2 := by
  unfold toInt
  split_ifs with h
  · have h1 := Int.floor_le t
    have h2 : (0 : ℝ) ≤ (⌊t⌋ : ℝ) := by exact_mod_cast Int.floor_nonneg.mpr h
    nlinarith
  · have h1 := Int.le_ceil t
    have h2 : (⌈t⌉ : ℝ) ≤ 0 := by
      have : ⌈t⌉ ≤ 0 := Int.ceil_le.mpr (by push_cast; linarith)
      exact_mod_cast this
    nlinarith

/-- For a side length of at least 11 the erase radius is at least `sideLength * sqrt 3`. -/
lemma eraseRadius_ge_sqrt_three (s : Cube3D ℝ) (h : 11 ≤ s.sideLength) :
    s.sideLength * Real.sqrt 3 ≤ (eraseRadius Real.sqrt s : ℝ) := by
  obtain ⟨h2, h3⟩ := sqrt_two_three_bounds
  rw [eraseRadius_of_pos s (by linarith)]
  have f1 := Int.lt_floor_add_one (s.sideLength * Real.sqrt 2)
  have f2 := Int.lt_floor_add_one (s.sideLength / 2)
  have hc : (0.18215 : ℝ) ≤ Real.sqrt 2 + 1 / 2 - Real.sqrt 3 := by linarith
  have hm : (11 : ℝ) * 0.18215 ≤ s.sideLength * (Real.sqrt 2 + 1 / 2 - Real.sqrt 3) :=
    mul_le_mul h hc (by norm_num) (by linarith)
  push_cast
  nlinarith

/-- C17 (the code at the failing input): for side length 1 `eraseCubeArea` fills a circle of
radius 1, which is less than the half diagonal `1 * sqrt 2` of the square of side 2. -/
theorem erase_radius_below_half_diagonal :
    eraseCubeArea Real.sqrt (ctor 40 40 (1 : ℝ))
        = [DisplayCmd.fillCircle 40 40 1 ST77XX_BLACK] ∧
      ((eraseRadius Real.sqrt (ctor 40 40 (1 : ℝ)) : ℤ) : ℝ)
        < (ctor 40 40 (1 : ℝ)).sideLength * Real.sqrt 2 := by
  obtain ⟨hlo, hhi⟩ := sqrt_two_bounds
  have hr := eraseRadius_one 40 40
  refine ⟨?_, ?_⟩
  · simp only [eraseCubeArea, hr]
    rfl
  · rw [hr]
    show ((1 : ℤ) : ℝ) < 1 * Real.sqrt 2
    push_cast
    linarith

/-- C19: for a side length of at least 11, any centre and any three rotation angles, every
one of the 8 projected vertices (with the truncating conversion of `project`) lies at
Euclidean distance at most the erase radius from the centre. -/
theorem erase_circle_covers_vertices (cx cy : ℤ) (sl a b c : ℝ) (i : Fin 8) (h : 11 ≤ sl) :
    Real.sqrt
        ((((project (withAngles (ctor cx cy sl) a b c)
              (rotatedVertices Real.cos Real.sin (withAngles (ctor cx cy sl) a b c) i)).x
            - (withAngles (ctor cx cy sl) a b c).centerX : ℤ) : ℝ) ^ 2
          + (((project (withAngles (ctor cx cy sl) a b c)
              (rotatedVertices Real.cos Real.sin (withAngles (ctor cx cy sl) a b c) i)).y
            - (withAngles (ctor cx cy sl) a b c).centerY : ℤ) : ℝ) ^ 2)
      ≤ ((eraseRadius Real.sqrt (withAngles (ctor cx cy sl) a b c) : ℤ) : ℝ) := by
  have hs : (withAngles (ctor cx cy sl) a b c).sideLength = sl := rfl
  have hr := eraseRadius_ge_sqrt_three (withAngles (ctor cx cy sl) a b c) (by rw [hs]; exact h)
  rw [hs] at hr
  have hn := normSq_rotatedVertices cx cy sl a b c i
  have q3 : Real.sqrt 3 ^ 2 = 3 := Real.sq_sqrt (by norm_num)
  have p3 : (0 : ℝ) ≤ Real.sqrt 3 := Real.sqrt_nonneg 3
  have hr0 : (0 : ℝ) ≤ sl * Real.sqrt 3 := mul_nonneg (by linarith) p3
  generalize rotatedVertices Real.cos Real.sin (withAngles (ctor cx cy sl) a b c) i = v at hn ⊢
  generalize ((eraseRadius Real.sqrt (withAngles (ctor cx cy sl) a b c) : ℤ) : ℝ) = r at hr ⊢
  have ex : (project (withAngles (ctor cx cy sl) a b c) v).x
      - (withAngles (ctor cx cy sl) a b c).centerX = toInt (v.x * sl) := by
    simp [project, withAngles, ctor]
  have ey : (project (withAngles (ctor cx cy sl) a b c) v).y
      - (withAngles (ctor cx cy sl) a b c).centerY = toInt (v.y * sl) := by
    simp [project, withAngles, ctor]
  rw [ex, ey, Real.sqrt_le_iff]
  refine ⟨by linarith, ?_⟩
  have tx := toInt_sq_le (v.x * sl)
  have ty := toInt_sq_le (v.y * sl)
  have hz : 0 ≤ v.z ^ 2 := sq_nonneg _
  have hxy : v.x ^ 2 + v.y ^ 2 ≤ 3 := by
    unfold normSq at hn
    linarith
  have hsl2 : 0 ≤ sl ^ 2 := sq_nonneg _
  have h1 : (v.x * sl) ^ 2 + (v.y * sl) ^ 2 ≤ 3 * sl ^ 2 := by
    have := mul_le_mul_of_nonneg_right hxy hsl2
    nlinarith
  have h2 : (sl * Real.sqrt 3) ^ 2 ≤ r ^ 2 := by
    exact pow_le_pow_left₀ hr0 hr 2
  have h3 : (sl * Real.sqrt 3) ^ 2 = 3 * sl ^ 2 := by
    rw [mul_pow, q3]
    ring
  linarith

/-- C19 (witness): side length 11, centre (40, 40), all angles 0, vertex 0. -/
theorem erase_circle_covers_vertices_witness :
    (11 : ℝ) ≤ 11 ∧
    Real.sqrt
        ((((project (withAngles (ctor 40 40 (11 : ℝ)) 0 0 0)
              (rotatedVertices Real.cos Real.sin (withAngles (ctor 40 40 (11 : ℝ)) 0 0 0) 0)).x
            - (withAngles (ctor 40 40 (11 : ℝ)) 0 0 0).centerX : ℤ) : ℝ) ^ 2
          + (((project (withAngles (ctor 40 40 (11 : ℝ)) 0 0 0)
              (rotatedVertices Real.cos Real.sin (withAngles (ctor 40 40 (11 : ℝ)) 0 0 0) 0)).y
            - (withAngles (ctor 40 40 (11 : ℝ)) 0 0 0).centerY : ℤ) : ℝ) ^ 2)
      ≤ ((eraseRadius Real.sqrt (withAngles (ctor 40 40 (11 : ℝ)) 0 0 0) : ℤ) : ℝ) :=
  ⟨le_refl _, erase_circle_covers_vertices 40 40 11 0 0 0 0 (le_refl _)⟩

end Cube3D

/-! ## Rounding to `float` -/

namespace Cube3D

/-- The binary exponent of a positive number is determined by the powers of two around it. -/
lemma log_two_eq {r : ℝ} {e : ℤ} (hr : 0 < r) (h1 : (2 : ℝ) ^ e ≤ r)
    (h2 : r < (2 : ℝ) ^ (e + 1)) : Int.log 2 r = e := by
  have hb : 1 < 2 := by norm_num
  have a1 : e ≤ Int.log 2 r := by
    rw [← Int.zpow_le_iff_le_log hb hr]
    exact_mod_cast h1
  have a2 : Int.log 2 r < e + 1 := by
    rw [← Int.lt_zpow_iff_log_lt hb hr]
    exact_mod_cast h2
  omega

/-- Rounding to the nearest whole number gives the floor, or the floor plus one when the
fractional part is at least one half. -/
lemma roundHalfEven_cases (y : ℝ) :
    roundHalfEven y = ⌊y⌋ ∨ (roundHalfEven y = ⌊y⌋ + 1 ∧ 1 / 2 ≤ Int.fract y) := by
  unfold roundHalfEven
  split_ifs with h1 h2 h3
  · exact Or.inl rfl
  · exact Or.inr ⟨rfl, h2.le⟩
  · exact Or.inl rfl
  · exact Or.inr ⟨rfl, not_lt.mp h1⟩

/-- A whole number less than half away is the result of the rounding. -/
lemma roundHalfEven_eq_of_abs_lt (y : ℝ) (m : ℤ) (h : |y - m| < 1 / 2) :
    roundHalfEven y = m := by
  have hf := Int.floor_add_fract y
  have h0 := Int.fract_nonneg y
  have h1 := Int.fract_lt_one y
  obtain ⟨ha, hb⟩ := abs_lt.mp h
  rcases roundHalfEven_cases y with hr | ⟨hr, hge⟩
  · rw [hr]
    have c1 : ((⌊y⌋ : ℤ) : ℝ) < (m : ℝ) + 1 := by linarith
    have c2 : (m : ℝ) - 1 < ((⌊y⌋ : ℤ) : ℝ) := by
      by_contra hc
      have hc2 := not_lt.mp hc
      have hf2 : Int.fract y < 1 / 2 := by
        by_contra hf3
        have hr2 : roundHalfEven y ≠ ⌊y⌋ ∨ Int.fract y = 1 / 2 := by
          rcases lt_or_eq_of_le (not_lt.mp hf3) with hlt | heq
          · left
            unfold roundHalfEven
            rw [if_neg hf3, if_pos hlt]
            omega
          · right
            exact heq.symm
        rcases hr2 with hne | heq
        · exact hne hr
        · linarith
      linarith
    have d1 : ⌊y⌋ < m + 1 := by exact_mod_cast c1
    have d2 : m - 1 < ⌊y⌋ := by exact_mod_cast c2
    omega
  · rw [hr]
    have c1 : ((⌊y⌋ : ℤ) : ℝ) < (m : ℝ) := by linarith
    have c2 : (m : ℝ) - 2 < ((⌊y⌋ : ℤ) : ℝ) := by linarith
    have d1 : ⌊y⌋ < m := by exact_mod_cast c1
    have d2 : m - 2 < ⌊y⌋ := by exact_mod_cast c2
    omega

/-- Rounding a whole number leaves it. -/
lemma roundHalfEven_intCast (k : ℤ) : roundHalfEven (k : ℝ) = k :=
  roundHalfEven_eq_of_abs_lt _ k (by norm_num)

/-- The rounding does not go below a whole number that the argument is not below. -/
lemma le_roundHalfEven (y : ℝ) (k : ℤ) (h : (k : ℝ) ≤ y) : k ≤ roundHalfEven y := by
  have hk : k ≤ ⌊y⌋ := Int.le_floor.mpr h
  rcases roundHalfEven_cases y with hr | ⟨hr, -⟩ <;> omega

/-- The rounding does not go above a whole number that the argument is not above. -/
lemma roundHalfEven_le (y : ℝ) (k : ℤ) (h : y ≤ (k : ℝ)) : roundHalfEven y ≤ k := by
  have hf := Int.floor_add_fract y
  rcases roundHalfEven_cases y with hr | ⟨hr, hge⟩
  · have : ((⌊y⌋ : ℤ) : ℝ) ≤ (k : ℝ) := le_trans (Int.floor_le y) h
    have : ⌊y⌋ ≤ k := by exact_mod_cast this
    omega
  · have : ((⌊y⌋ : ℤ) : ℝ) < (k : ℝ) := by linarith
    have : ⌊y⌋ < k := by exact_mod_cast this
    omega

/-- The `float` nearest to zero is zero. -/
lemma toFloat_zero : toFloat (0 : ℝ) = 0 := by
  simp [toFloat, roundHalfEven]

/-- Evaluation of the rounding to `float`: with the binary exponent `e` of `x` and a whole
number `m` less than half away from `x / 2 ^ (e - 23)`, the `float` is `m * 2 ^ (e - 23)`. -/
lemma toFloat_eq (x : ℝ) (e m : ℤ) (h1 : (2 : ℝ) ^ e ≤ |x|) (h2 : |x| < (2 : ℝ) ^ (e + 1))
    (hm : |x / 2 ^ (e - 23) - m| < 1 / 2) : toFloat x = m * 2 ^ (e - 23) := by
  have hpos : 0 < |x| := lt_of_lt_of_le (by positivity) h1
  unfold toFloat
  rw [log_two_eq hpos h1 h2, roundHalfEven_eq_of_abs_lt _ m hm]

/-- A number of magnitude below `2 ^ 24` is rounded to a `float` between its floor and its
ceiling. -/
lemma toFloat_between (x : ℝ) (h : |x| < 2 ^ 24) :
    ((⌊x⌋ : ℤ) : ℝ) ≤ toFloat x ∧ toFloat x ≤ ((⌈x⌉ : ℤ) : ℝ) := by
  by_cases hx : x = 0
  · subst hx
    simp [toFloat_zero]
  have hpos : 0 < |x| := abs_pos.mpr hx
  have hlog : Int.log 2 |x| < 24 := by
    rw [← Int.lt_zpow_iff_log_lt (by norm_num) hpos]
    exact_mod_cast h
  obtain ⟨n, hn⟩ : ∃ n : ℕ, Int.log 2 |x| - 23 = -(n : ℤ) :=
    ⟨(23 - Int.log 2 |x|).toNat, by omega⟩
  have hq : (2 : ℝ) ^ (Int.log 2 |x| - 23) = ((2 : ℝ) ^ n)⁻¹ := by
    rw [hn, zpow_neg, zpow_natCast]
  have hN : (0 : ℝ) < (2 : ℝ) ^ n := by positivity
  unfold toFloat
  rw [hq, div_inv_eq_mul]
  have lo : ⌊x⌋ * 2 ^ n ≤ roundHalfEven (x * 2 ^ n) := by
    apply le_roundHalfEven
    push_cast
    exact mul_le_mul_of_nonneg_right (Int.floor_le x) hN.le
  have hi : roundHalfEven (x * 2 ^ n) ≤ ⌈x⌉ * 2 ^ n := by
    apply roundHalfEven_le
    push_cast
    exact mul_le_mul_of_nonneg_right (Int.le_ceil x) hN.le
  have lo2 : ((⌊x⌋ : ℤ) : ℝ) * 2 ^ n ≤ (roundHalfEven (x * 2 ^ n) : ℝ) := by exact_mod_cast lo
  have hi2 : (roundHalfEven (x * 2 ^ n) : ℝ) ≤ ((⌈x⌉ : ℤ) : ℝ) * 2 ^ n := by exact_mod_cast hi
  constructor
  · rw [le_mul_inv_iff₀ hN]
    exact lo2
  · rw [mul_inv_le_iff₀ hN]
    exact hi2

/-- A positive number is rounded to a positive `float`. -/
lemma toFloat_pos (x : ℝ) (h : 0 < x) : 0 < toFloat x := by
  have habs : |x| = x := abs_of_pos h
  have hle : (2 : ℝ) ^ Int.log 2 |x| ≤ |x| := by
    have := Int.zpow_log_le_self (b := 2) (r := |x|) (by norm_num) (by rw [habs]; exact h)
    exact_mod_cast this
  have hq : (0 : ℝ) < 2 ^ (Int.log 2 |x| - 23) := by positivity
  have h1 : (1 : ℝ) ≤ x / 2 ^ (Int.log 2 |x| - 23) := by
    rw [le_div_iff₀ hq, one_mul]
    have : (2 : ℝ) ^ (Int.log 2 |x| - 23) ≤ 2 ^ Int.log 2 |x| :=
      zpow_le_zpow_right₀ (by norm_num) (by omega)
    have hx2 : |x| ≤ x := habs.le
    linarith
  have h2 : (1 : ℤ) ≤ roundHalfEven (x / 2 ^ (Int.log 2 |x| - 23)) :=
    le_roundHalfEven _ 1 (by exact_mod_cast h1)
  have h3 : (1 : ℝ) ≤ (roundHalfEven (x / 2 ^ (Int.log 2 |x| - 23)) : ℝ) := by exact_mod_cast h2
  unfold toFloat
  positivity

/-- Every `float` is a rational number. -/
lemma toFloat_rat (x : ℝ) : ∃ q : ℚ, toFloat x = (q : ℝ) := by
  refine ⟨(roundHalfEven (x / 2 ^ (Int.log 2 |x| - 23)) : ℚ) * 2 ^ (Int.log 2 |x| - 23), ?_⟩
  unfold toFloat
  push_cast
  rfl

/-- No `float` equals `2 * π`. -/
lemma toFloat_ne_two_pi (x : ℝ) : toFloat x ≠ 2 * Real.pi := by
  obtain ⟨q, hq⟩ := toFloat_rat x
  intro h
  apply irrational_pi
  refine ⟨q / 2, ?_⟩
  push_cast
  rw [← hq, h]
  ring

/-- Doubling commutes with the rounding to `float`. -/
lemma toFloat_two_mul (x : ℝ) : toFloat (2 * x) = 2 * toFloat x := by
  by_cases hx : x = 0
  · subst hx
    simp [toFloat_zero]
  have hpos : 0 < |x| := abs_pos.mpr hx
  have hle : (2 : ℝ) ^ Int.log 2 |x| ≤ |x| := by
    have := Int.zpow_log_le_self (b := 2) (r := |x|) (by norm_num) hpos
    exact_mod_cast this
  have hlt : |x| < (2 : ℝ) ^ (Int.log 2 |x| + 1) := by
    have := Int.lt_zpow_succ_log_self (b := 2) (by norm_num) |x|
    exact_mod_cast this
  have h2 : |2 * x| = 2 * |x| := by rw [abs_mul, abs_two]
  have hlog : Int.log 2 |2 * x| = Int.log 2 |x| + 1 := by
    apply log_two_eq (by rw [h2]; positivity)
    · rw [h2, zpow_add₀ (by norm_num : (2 : ℝ) ≠ 0), zpow_one]
      linarith
    · rw [h2, zpow_add₀ (by norm_num : (2 : ℝ) ≠ 0) (Int.log 2 |x| + 1), zpow_one]
      linarith
  have hq : (2 : ℝ) ^ (Int.log 2 |x| + 1 - 23) = 2 ^ (Int.log 2 |x| - 23) * 2 := by
    rw [show Int.log 2 |x| + 1 - 23 = (Int.log 2 |x| - 23) + 1 by ring,
      zpow_add₀ (by norm_num : (2 : ℝ) ≠ 0), zpow_one]
  have hq0 : (0 : ℝ) < 2 ^ (Int.log 2 |x| - 23) := by positivity
  unfold toFloat
  rw [hlog, hq]
  have hd : 2 * x / (2 ^ (Int.log 2 |x| - 23) * 2) = x / 2 ^ (Int.log 2 |x| - 23) := by
    field_simp
    ring
  rw [hd]
  ring

end Cube3D

/-! ## Projection with `float` rounding -/

namespace Cube3D

/-- A number with binary exponent `e` that is a whole multiple of `2 ^ (e - 23)` is a `float`:
the rounding leaves it. -/
lemma toFloat_eq_self (x : ℝ) (e m : ℤ) (h1 : (2 : ℝ) ^ e ≤ |x|) (h2 : |x| < (2 : ℝ) ^ (e + 1))
    (hx : x = m * 2 ^ (e - 23)) : toFloat x = x := by
  have hq : (0 : ℝ) < 2 ^ (e - 23) := by positivity
  rw [toFloat_eq x e m h1 h2, ← hx]
  rw [hx, mul_div_assoc, div_self hq.ne.symm, mul_one, sub_self, abs_zero]
  norm_num

/-- The `float` values used in the examples: 0.75, 1.5 and their negatives. -/
lemma toFloat_three_quarters :
    toFloat (3 / 4 : ℝ) = 3 / 4 ∧ toFloat (-3 / 4 : ℝ) = -3 / 4 ∧
      toFloat (3 / 2 : ℝ) = 3 / 2 ∧ toFloat (-3 / 2 : ℝ) = -3 / 2 := by
  refine ⟨?_, ?_, ?_, ?_⟩
  · exact toFloat_eq_self _ (-1) 12582912 (by norm_num [abs_of_pos])
      (by norm_num [abs_of_pos]) (by norm_num)
  · exact toFloat_eq_self _ (-1) (-12582912) (by norm_num [abs_of_neg])
      (by norm_num [abs_of_neg]) (by norm_num)
  · exact toFloat_eq_self _ 0 12582912 (by norm_num [abs_of_pos])
      (by norm_num [abs_of_pos]) (by norm_num)
  · exact toFloat_eq_self _ 0 (-12582912) (by norm_num [abs_of_neg])
      (by norm_num [abs_of_neg]) (by norm_num)

/-- The truncations used in the examples. -/
lemma toInt_three_quarters :
    toInt (3 / 4 : ℝ) = 0 ∧ toInt (-3 / 4 : ℝ) = 0 ∧ toInt (3 / 2 : ℝ) = 1 ∧
      toInt (-3 / 2 : ℝ) = -1 := by
  refine ⟨?_, ?_, ?_, ?_⟩
  · rw [toInt_of_nonneg (by norm_num), Int.floor_eq_iff]
    norm_num
  · unfold toInt
    rw [if_neg (by norm_num), Int.ceil_eq_iff]
    norm_num
  · rw [toInt_of_nonneg (by norm_num), Int.floor_eq_iff]
    norm_num
  · unfold toInt
    rw [if_neg (by norm_num), Int.ceil_eq_iff]
    norm_num

/-- The point (10, 0, 0) at scale `11744051 / 16777216` (the `float` nearest to 0.7): the
exact product is below 7, the `float` product is 7, and `project` gives `x = 40 + 7`; at the
doubled scale it gives `x = 40 + 14`. -/
lemma project_at_float_seven_tenths :
    (10 : ℝ) * (11744051 / 16777216) < 7 ∧
      Binary32.project (ctor 40 40 (11744051 / 16777216 : ℝ)) ⟨10, 0, 0⟩ = ⟨47, 40⟩ ∧
      Binary32.project (ctor 40 40 (2 * (11744051 / 16777216) : ℝ)) ⟨10, 0, 0⟩ = ⟨54, 40⟩ := by
  have hf : toFloat ((10 : ℝ) * (11744051 / 16777216)) = 7 := by
    rw [toFloat_eq _ 2 14680064 (by norm_num [abs_of_pos]) (by norm_num [abs_of_pos])
      (by norm_num [abs_lt])]
    norm_num
  have hf2 : toFloat ((10 : ℝ) * (2 * (11744051 / 16777216))) = 14 := by
    rw [show (10 : ℝ) * (2 * (11744051 / 16777216)) = 2 * (10 * (11744051 / 16777216)) by ring,
      toFloat_two_mul, hf]
    norm_num
  have h7 : toInt (7 : ℝ) = 7 := by
    rw [show (7 : ℝ) = ((7 : ℤ) : ℝ) by norm_num, toInt_intCast]
  have h14 : toInt (14 : ℝ) = 14 := by
    rw [show (14 : ℝ) = ((14 : ℤ) : ℝ) by norm_num, toInt_intCast]
  have h0 : toInt (toFloat (0 : ℝ)) = 0 := by
    rw [toFloat_zero, show (0 : ℝ) = ((0 : ℤ) : ℝ) by norm_num, toInt_intCast]
  refine ⟨by norm_num, ?_, ?_⟩
  · simp only [Binary32.project, ctor, hf, h7, zero_mul, h0]
    rfl
  · simp only [Binary32.project, ctor, hf2, h14, zero_mul, h0]
    rfl

/-- C2 (counterexample): with centre (40, 40) and scale 1 the point (0.75, -0.75, 0) is
projected to (40, 40), while rounding to the nearest integer would give (41, 39). -/
theorem project_not_round :
    Binary32.project (ctor 40 40 (1 : ℝ)) ⟨3 / 4, -3 / 4, 0⟩ = ⟨40, 40⟩ ∧
      Binary32.project (ctor 40 40 (1 : ℝ)) ⟨3 / 4, -3 / 4, 0⟩
        ≠ ⟨40 + round ((3 / 4 : ℝ) * 1), 40 + round ((-3 / 4 : ℝ) * 1)⟩ := by
  obtain ⟨f1, f2, -, -⟩ := toFloat_three_quarters
  obtain ⟨t1, t2, -, -⟩ := toInt_three_quarters
  have hr : round ((3 / 4 : ℝ) * 1) = 1 := by
    rw [round_eq, Int.floor_eq_iff]
    norm_num
  have hp : Binary32.project (ctor 40 40 (1 : ℝ)) ⟨3 / 4, -3 / 4, 0⟩ = ⟨40, 40⟩ := by
    simp only [Binary32.project, ctor, mul_one, f1, f2, t1, t2, add_zero]
  refine ⟨hp, ?_⟩
  rw [hp, hr]
  intro h
  have h1 := congrArg Point2D.x h
  simp at h1

/-- C2 (amended): `project` adds to the centre the `float` products `x * sideLength` and
`y * sideLength` truncated toward zero (the sign of the product times the floor of its absolute
value), and the result does not depend on `z`. -/
theorem project_truncates (s : Cube3D ℝ) (x y z z2 : ℝ) :
    Binary32.project s ⟨x, y, z⟩
        = ⟨s.centerX + (SignType.sign (toFloat (x * s.sideLength)) : ℤ)
              * ⌊|toFloat (x * s.sideLength)|⌋,
           s.centerY + (SignType.sign (toFloat (y * s.sideLength)) : ℤ)
              * ⌊|toFloat (y * s.sideLength)|⌋⟩ ∧
      Binary32.project s ⟨x, y, z⟩ = Binary32.project s ⟨x, y, z2⟩ := by
  refine ⟨?_, rfl⟩
  simp only [Binary32.project, toInt_eq_sign_mul_floor_abs]

/-- C11 (counterexample): with centre (40, 40) the point (0.75, -0.75, 0) has displacement
(0, 0) at scale 1 and displacement (1, -1) at scale 2, which is not twice (0, 0). -/
theorem project_double_not_linear :
    Binary32.project (ctor 40 40 (1 : ℝ)) ⟨3 / 4, -3 / 4, 0⟩ = ⟨40, 40⟩ ∧
      Binary32.project (ctor 40 40 (2 * 1 : ℝ)) ⟨3 / 4, -3 / 4, 0⟩ = ⟨41, 39⟩ ∧
      (Binary32.project (ctor 40 40 (2 * 1 : ℝ)) ⟨3 / 4, -3 / 4, 0⟩).x - 40
        ≠ 2 * ((Binary32.project (ctor 40 40 (1 : ℝ)) ⟨3 / 4, -3 / 4, 0⟩).x - 40) := by
  obtain ⟨f1, f2, f3, f4⟩ := toFloat_three_quarters
  obtain ⟨t1, t2, t3, t4⟩ := toInt_three_quarters
  have e1 : (3 / 4 : ℝ) * (2 * 1) = 3 / 2 := by norm_num
  have e2 : (-3 / 4 : ℝ) * (2 * 1) = -3 / 2 := by norm_num
  have h1 : Binary32.project (ctor 40 40 (1 : ℝ)) ⟨3 / 4, -3 / 4, 0⟩ = ⟨40, 40⟩ := by
    simp only [Binary32.project, ctor, mul_one, f1, f2, t1, t2, add_zero]
  have h2 : Binary32.project (ctor 40 40 (2 * 1 : ℝ)) ⟨3 / 4, -3 / 4, 0⟩ = ⟨41, 39⟩ := by
    simp only [Binary32.project, ctor, e1, e2, f3, f4, t3, t4]
    rfl
  refine ⟨h1, h2, ?_⟩
  rw [h1, h2]
  norm_num

/-- C11 (amended): with `w` the `float` product `x * s` (respectively `y * s`), the
displacement of the projection at scale `2 * s` is twice the displacement at scale `s` when
the fractional part of `|w|` is below one half, and is one pixel farther from the centre than
twice it otherwise. -/
theorem project_double_scale (s : Cube3D ℝ) (p : Point3D ℝ) :
    (Binary32.project { s with sideLength := 2 * s.sideLength } p).x - s.centerX
        = 2 * ((Binary32.project s p).x - s.centerX)
          + (SignType.sign (toFloat (p.x * s.sideLength)) : ℤ)
            * (if Int.fract |toFloat (p.x * s.sideLength)| < 1 / 2 then 0 else 1) ∧
      (Binary32.project { s with sideLength := 2 * s.sideLength } p).y - s.centerY
        = 2 * ((Binary32.project s p).y - s.centerY)
          + (SignType.sign (toFloat (p.y * s.sideLength)) : ℤ)
            * (if Int.fract |toFloat (p.y * s.sideLength)| < 1 / 2 then 0 else 1) := by
  have hx : p.x * (2 * s.sideLength) = 2 * (p.x * s.sideLength) := by ring
  have hy : p.y * (2 * s.sideLength) = 2 * (p.y * s.sideLength) := by ring
  simp only [Binary32.project, hx, hy, toFloat_two_mul, toInt_two_mul]
  constructor <;> ring

end Cube3D

/-! ## The erase radius with `float` rounding -/

namespace Cube3D

end Cube3D

/-! ## The rotation angles under `update` with `float` rounding -/

namespace Cube3D

/-- One increment-and-wrap step of `update` on an angle in `[0, 2 * π]`, with a step in
`(0, 0.03]`: the stored `float` lies strictly between 0 and `2 * π`. -/
lemma wrap_toFloat_mem (a d : ℝ) (ha0 : 0 ≤ a) (ha1 : a ≤ 2 * Real.pi) (hd0 : 0 < d)
    (hd1 : d ≤ 0.03) :
    0 < Binary32.wrap (2 * Real.pi) (toFloat (a + d)) ∧
      Binary32.wrap (2 * Real.pi) (toFloat (a + d)) < 2 * Real.pi := by
  have hpi := Real.pi_gt_three
  have hpi2 := Real.pi_lt_d2
  have hx0 : 0 < a + d := by linarith
  have hx7 : a + d ≤ 7 := by norm_num at hd1 hpi2 ⊢; linarith
  have hp : 0 < toFloat (a + d) := toFloat_pos _ hx0
  have hle : toFloat (a + d) ≤ 7 := by
    obtain ⟨-, hi⟩ := toFloat_between (a + d) (by rw [abs_of_pos hx0]; norm_num; linarith)
    have hc : ⌈a + d⌉ ≤ 7 := Int.ceil_le.mpr (by exact_mod_cast hx7)
    have hc2 : ((⌈a + d⌉ : ℤ) : ℝ) ≤ 7 := by exact_mod_cast hc
    linarith
  unfold Binary32.wrap
  split_ifs with hgt
  · have hz0 : 0 < toFloat (a + d) - 2 * Real.pi := by linarith
    have hz1 : toFloat (a + d) - 2 * Real.pi ≤ 1 := by linarith
    refine ⟨toFloat_pos _ hz0, ?_⟩
    obtain ⟨-, hi⟩ := toFloat_between (toFloat (a + d) - 2 * Real.pi)
      (by rw [abs_of_pos hz0]; norm_num; linarith)
    have hc : ⌈toFloat (a + d) - 2 * Real.pi⌉ ≤ 1 := Int.ceil_le.mpr (by exact_mod_cast hz1)
    have hc2 : ((⌈toFloat (a + d) - 2 * Real.pi⌉ : ℤ) : ℝ) ≤ 1 := by exact_mod_cast hc
    linarith
  · exact ⟨hp, lt_of_le_of_ne (not_lt.mp hgt) (toFloat_ne_two_pi _)⟩

/-- C20 (counterexample): the state with `angleX = 13155823 / 2097152` has its angles in
`[0, 2 * π]` and `angleX + 0.01` does not exceed `2 * π`; yet the sum is stored as the `float`
`13176795 / 2097152`, which exceeds `2 * π`, so `update()` subtracts `2 * π`: the new angle is
neither `angleX + 0.01` nor `angleX + 0.01 - 2 * π`. -/
theorem wrap_not_at_exact_sum :
    AnglesInClosed (2 * Real.pi) (withAngles (ctor 40 40 (20 : ℝ)) (13155823 / 2097152) 0 0) ∧
    (withAngles (ctor 40 40 (20 : ℝ)) (13155823 / 2097152) 0 0).angleX + 0.01 ≤ 2 * Real.pi ∧
    toFloat ((withAngles (ctor 40 40 (20 : ℝ)) (13155823 / 2097152) 0 0).angleX + 0.01)
      > 2 * Real.pi ∧
    (Binary32.updateState (2 * Real.pi)
        (withAngles (ctor 40 40 (20 : ℝ)) (13155823 / 2097152) 0 0)).angleX
      ≠ (withAngles (ctor 40 40 (20 : ℝ)) (13155823 / 2097152) 0 0).angleX + 0.01 ∧
    (Binary32.updateState (2 * Real.pi)
        (withAngles (ctor 40 40 (20 : ℝ)) (13155823 / 2097152) 0 0)).angleX
      ≠ (withAngles (ctor 40 40 (20 : ℝ)) (13155823 / 2097152) 0 0).angleX + 0.01
        - 2 * Real.pi := by
  have hlo := Real.pi_gt_d20
  have hhi := Real.pi_lt_d20
  have ha : (withAngles (ctor 40 40 (20 : ℝ)) (13155823 / 2097152) 0 0).angleX
      = 13155823 / 2097152 := rfl
  have hsum : (13155823 / 2097152 : ℝ) + 0.01 ≤ 2 * Real.pi := by
    norm_num at hlo ⊢
    linarith
  have hf : toFloat ((13155823 / 2097152 : ℝ) + 0.01) = 13176795 / 2097152 := by
    rw [toFloat_eq _ 2 13176795 (by norm_num [abs_of_pos]) (by norm_num [abs_of_pos])
      (by norm_num [abs_lt])]
    norm_num
  have hgt : (13176795 / 2097152 : ℝ) > 2 * Real.pi := by
    norm_num at hhi ⊢
    linarith
  have hmem := wrap_toFloat_mem (13155823 / 2097152) 0.01 (by norm_num)
    (by norm_num at hlo ⊢; linarith) (by norm_num) (by norm_num)
  have hnew : (Binary32.updateState (2 * Real.pi)
      (withAngles (ctor 40 40 (20 : ℝ)) (13155823 / 2097152) 0 0)).angleX
      = Binary32.wrap (2 * Real.pi) (toFloat ((13155823 / 2097152 : ℝ) + 0.01)) := rfl
  have hw : Binary32.wrap (2 * Real.pi) (toFloat ((13155823 / 2097152 : ℝ) + 0.01)) ≤ 1 := by
    unfold Binary32.wrap
    rw [hf, if_pos hgt]
    have hz0 : (0 : ℝ) < 13176795 / 2097152 - 2 * Real.pi := by linarith
    have hz1 : (13176795 / 2097152 : ℝ) - 2 * Real.pi ≤ 1 := by
      norm_num at hlo ⊢
      linarith
    obtain ⟨-, hi⟩ := toFloat_between ((13176795 / 2097152 : ℝ) - 2 * Real.pi)
      (by rw [abs_of_pos hz0]; norm_num; linarith)
    have hc : ⌈(13176795 / 2097152 : ℝ) - 2 * Real.pi⌉ ≤ 1 :=
      Int.ceil_le.mpr (by exact_mod_cast hz1)
    have hc2 : ((⌈(13176795 / 2097152 : ℝ) - 2 * Real.pi⌉ : ℤ) : ℝ) ≤ 1 := by
      exact_mod_cast hc
    linarith
  rw [hnew, ha]
  refine ⟨?_, hsum, by rw [hf]; exact hgt, ?_, ?_⟩
  · refine ⟨⟨?_, ?_⟩, ⟨?_, ?_⟩, ⟨?_, ?_⟩⟩ <;> norm_num [withAngles, ctor] <;>
      (norm_num at hlo; linarith)
  · intro he
    rw [he] at hw
    norm_num at hw
  · intro he
    have := hmem.1
    rw [he] at this
    linarith

/-- C20 (amended): from a state whose three angles lie in `[0, 2 * π]`, one `update()` gives
angles in `(0, 2 * π]`; each new angle is the `float` sum of the old one and its step (0.01,
0.02, 0.03), less `2 * π` (the difference again rounded to `float`) exactly when that `float`
sum exceeds `2 * π`. -/
theorem update_angles_from_closed (s : Cube3D ℝ) (h : AnglesInClosed (2 * Real.pi) s) :
    ((0 < (Binary32.updateState (2 * Real.pi) s).angleX ∧
        (Binary32.updateState (2 * Real.pi) s).angleX ≤ 2 * Real.pi) ∧
      (0 < (Binary32.updateState (2 * Real.pi) s).angleY ∧
        (Binary32.updateState (2 * Real.pi) s).angleY ≤ 2 * Real.pi) ∧
      (0 < (Binary32.updateState (2 * Real.pi) s).angleZ ∧
        (Binary32.updateState (2 * Real.pi) s).angleZ ≤ 2 * Real.pi)) ∧
    (Binary32.updateState (2 * Real.pi) s).angleX
      = (if toFloat (s.angleX + 0.01) > 2 * Real.pi
          then toFloat (toFloat (s.angleX + 0.01) - 2 * Real.pi)
          else toFloat (s.angleX + 0.01)) ∧
    (Binary32.updateState (2 * Real.pi) s).angleY
      = (if toFloat (s.angleY + 0.02) > 2 * Real.pi
          then toFloat (toFloat (s.angleY + 0.02) - 2 * Real.pi)
          else toFloat (s.angleY + 0.02)) ∧
    (Binary32.updateState (2 * Real.pi) s).angleZ
      = (if toFloat (s.angleZ + 0.03) > 2 * Real.pi
          then toFloat (toFloat (s.angleZ + 0.03) - 2 * Real.pi)
          else toFloat (s.angleZ + 0.03)) := by
  obtain ⟨⟨hx0, hx1⟩, ⟨hy0, hy1⟩, ⟨hz0, hz1⟩⟩ := h
  have kx := wrap_toFloat_mem s.angleX 0.01 hx0 hx1 (by norm_num) (by norm_num)
  have ky := wrap_toFloat_mem s.angleY 0.02 hy0 hy1 (by norm_num) (by norm_num)
  have kz := wrap_toFloat_mem s.angleZ 0.03 hz0 hz1 (by norm_num) (by norm_num)
  exact ⟨⟨⟨kx.1, kx.2.le⟩, ⟨ky.1, ky.2.le⟩, ⟨kz.1, kz.2.le⟩⟩, rfl, rfl, rfl⟩

end Cube3D

namespace Cube3D

/-- C20 (witness): the state with `angleX = 13155823 / 2097152` and the other angles 0 has its
angles in `[0, 2 * π]`; after one `update()` they lie in `(0, 2 * π]`. -/
theorem update_angles_from_closed_witness :
    AnglesInClosed (2 * Real.pi) (withAngles (ctor 40 40 (20 : ℝ)) (13155823 / 2097152) 0 0) ∧
    (((0 < (Binary32.updateState (2 * Real.pi)
        (withAngles (ctor 40 40 (20 : ℝ)) (13155823 / 2097152) 0 0)).angleX ∧
        (Binary32.updateState (2 * Real.pi)
            (withAngles (ctor 40 40 (20 : ℝ)) (13155823 / 2097152) 0 0)).angleX ≤ 2 * Real.pi) ∧
      (0 < (Binary32.updateState (2 * Real.pi)
          (withAngles (ctor 40 40 (20 : ℝ)) (13155823 / 2097152) 0 0)).angleY ∧
        (Binary32.updateState (2 * Real.pi)
            (withAngles (ctor 40 40 (20 : ℝ)) (13155823 / 2097152) 0 0)).angleY ≤ 2 * Real.pi) ∧
      (0 < (Binary32.updateState (2 * Real.pi)
          (withAngles (ctor 40 40 (20 : ℝ)) (13155823 / 2097152) 0 0)).angleZ ∧
        (Binary32.updateState (2 * Real.pi)
            (withAngles (ctor 40 40 (20 : ℝ)) (13155823 / 2097152) 0 0)).angleZ ≤ 2 * Real.pi)) ∧
    (Binary32.updateState (2 * Real.pi) (withAngles (ctor 40 40 (20 : ℝ)) (13155823 / 2097152) 0 0)).angleX
      = (if toFloat ((withAngles (ctor 40 40 (20 : ℝ)) (13155823 / 2097152) 0 0).angleX + 0.01) > 2 * Real.pi
          then toFloat (toFloat ((withAngles (ctor 40 40 (20 : ℝ)) (13155823 / 2097152) 0 0).angleX + 0.01) - 2 * Real.pi)
          else toFloat ((withAngles (ctor 40 40 (20 : ℝ)) (13155823 / 2097152) 0 0).angleX + 0.01)) ∧
    (Binary32.updateState (2 * Real.pi) (withAngles (ctor 40 40 (20 : ℝ)) (13155823 / 2097152) 0 0)).angleY
      = (if toFloat ((withAngles (ctor 40 40 (20 : ℝ)) (13155823 / 2097152) 0 0).angleY + 0.02) > 2 * Real.pi
          then toFloat (toFloat ((withAngles (ctor 40 40 (20 : ℝ)) (13155823 / 2097152) 0 0).angleY + 0.02) - 2 * Real.pi)
          else toFloat ((withAngles (ctor 40 40 (20 : ℝ)) (13155823 / 2097152) 0 0).angleY + 0.02)) ∧
    (Binary32.updateState (2 * Real.pi) (withAngles (ctor 40 40 (20 : ℝ)) (13155823 / 2097152) 0 0)).angleZ
      = (if toFloat ((withAngles (ctor 40 40 (20 : ℝ)) (13155823 / 2097152) 0 0).angleZ + 0.03) > 2 * Real.pi
          then toFloat (toFloat ((withAngles (ctor 40 40 (20 : ℝ)) (13155823 / 2097152) 0 0).angleZ + 0.03) - 2 * Real.pi)
          else toFloat ((withAngles (ctor 40 40 (20 : ℝ)) (13155823 / 2097152) 0 0).angleZ + 0.03))) := by
  have hpi := Real.pi_gt_d2
  have h0 : AnglesInClosed (2 * Real.pi)
      (withAngles (ctor 40 40 (20 : ℝ)) (13155823 / 2097152) 0 0) := by
    refine ⟨⟨?_, ?_⟩, ⟨?_, ?_⟩, ⟨?_, ?_⟩⟩ <;> norm_num [withAngles, ctor] <;> linarith
  exact ⟨h0, update_angles_from_closed _ h0⟩

end Cube3D

/-! ## The scenario of the specification at the `float` nearest to `π` -/

namespace Cube3D

end Cube3D
